import Mathlib

/-!
Verification of the kolmogorov_smirnov library (src/src/ecdf.rs and
src/src/test.rs) against its specification.

Embedding conventions:
- Rust slices and vectors become Lean lists; the generic bound T: Ord becomes
  a LinearOrder type class.
- Rust f64 arithmetic on the values produced here (counts divided by lengths,
  absolute differences, comparisons, the nearest-rank ceiling) is modelled by
  exact rational arithmetic; the square root in the critical value formula is
  modelled by Real.sqrt.
- Functions that can panic via assert or out-of-bounds indexing return Option,
  with none as the aborted computation.
- Vec::sort is modelled by List.mergeSort with the ambient order.
- The two while loops whose termination argument needs a loop invariant (the
  quickselect main loop and the KS merge sweep) are written with an explicit
  fuel parameter that the callers instantiate with more than enough fuel;
  running out of fuel yields none, and the totality theorems below show the
  fuel bound is never reached.
-/

set_option linter.unusedSectionVars false

namespace KolmogorovSmirnov

variable {α : Type} [LinearOrder α]

/-- Model of Vec::sort: sort ascending with the ambient total order. -/
def sortAsc (l : List α) : List α := l.mergeSort (fun a b => a ≤ b)

/-- Count of elements less than or equal to t, as in the ECDF numerator. -/
def cntLE (l : List α) (t : α) : ℕ := l.countP (fun x => x ≤ t)

/-- Count of elements strictly less than t. -/
def cntLT (l : List α) (t : α) : ℕ := l.countP (fun x => x < t)

/-- Result type for the model of Rust slice::binary_search. -/
inductive BinSearchResult where
  | found (index : ℕ)
  | notFound (index : ℕ)

/-- Modelled semantics of the Rust standard library slice::binary_search as
used on the sorted sample cache: when the probe value occurs, Ok holds the
index of an occurrence (Rust may return any occurrence; this model returns the
first, which on a sorted list sits at index cntLT; the subsequent duplicate
walk in Ecdf.value makes the final answer independent of which occurrence is
chosen); when it does not occur, Err holds the insertion index, which on a
sorted list is the count of elements strictly below the probe. -/
def binarySearchSorted (l : List α) (t : α) : BinSearchResult :=
  if t ∈ l then .found (cntLT l t) else .notFound (cntLT l t)

/-- Cached ECDF over a sorted copy of the sample, as in struct Ecdf. -/
structure Ecdf (α : Type) [LinearOrder α] where
  samples : List α
  length : ℕ

/-- Embedding of Ecdf::new: assert non-empty, sort a copy. -/
def Ecdf.new (l : List α) : Option (Ecdf α) :=
  if 0 < l.length then some { samples := sortAsc l, length := l.length } else none

/-- Embedding of the walk loops that advance an index while the next entry
exists and still equals the captured value t: the duplicate walk in
Ecdf::value, and the two advance-past-duplicates loops of
calculate_statistic (which compare against the element captured at loop
entry, exactly as here). -/
def valueWalk (l : List α) (t : α) (index : ℕ) : ℕ :=
  if _h : index + 1 < l.length ∧ l.get? (index + 1) = some t then
    valueWalk l t (index + 1)
  else index
termination_by l.length - index
decreasing_by omega

/-- Embedding of Ecdf::value: binary search, then on a hit walk forward past
duplicates and report (last index + 1) / length, on a miss report the
insertion index / length. -/
def Ecdf.value (e : Ecdf α) (t : α) : ℚ :=
  let num : ℕ :=
    match binarySearchSorted e.samples t with
    | .found index => valueWalk e.samples t index + 1
    | .notFound index => index
  (num : ℚ) / (e.length : ℚ)

/-- Embedding of Ecdf::percentile: domain check, nearest-rank ceiling formula,
direct index into the sorted copy. -/
def Ecdf.percentile (e : Ecdf α) (p : ℕ) : Option α :=
  if 0 < p ∧ p ≤ 100 then
    let r : ℕ := (⌈(p : ℚ) * (e.length : ℚ) / 100⌉).toNat
    e.samples.get? (r - 1)
  else none

/-- Embedding of Ecdf::permille: domain check, nearest-rank ceiling formula,
direct index into the sorted copy. -/
def Ecdf.permille (e : Ecdf α) (p : ℕ) : Option α :=
  if 0 < p ∧ p ≤ 1000 then
    let r : ℕ := (⌈(p : ℚ) * (e.length : ℚ) / 1000⌉).toNat
    e.samples.get? (r - 1)
  else none

/-- Embedding of Ecdf::rank: domain check against the stored sample length,
then direct index into the sorted copy. -/
def Ecdf.rank (e : Ecdf α) (r : ℕ) : Option α :=
  let length := e.samples.length
  if 0 < r ∧ r ≤ length then e.samples.get? (r - 1) else none

/-- Embedding of Ecdf::min: first element of the sorted copy. -/
def Ecdf.min (e : Ecdf α) : Option α := e.samples.get? 0

/-- Embedding of Ecdf::max: last element of the sorted copy. -/
def Ecdf.max (e : Ecdf α) : Option α := e.samples.get? (e.samples.length - 1)

/-- Embedding of the free function ecdf: one linear pass counting elements at
most t and the length, assert non-empty, divide. -/
def ecdf (l : List α) (t : α) : Option ℚ :=
  if 0 < l.length then some ((cntLE l t : ℚ) / (l.length : ℚ)) else none

/-- Swap of two list positions, as Vec::swap; identity when an index is out of
range (the embedding only ever swaps in-range indices). -/
def listSwap (s : List α) (i j : ℕ) : List α :=
  match s.get? i, s.get? j with
  | some a, some b => (s.set i b).set j a
  | _, _ => s

/-- Embedding of the first partition loop of the free function rank: the two
nested scans and the swap are flattened into one tail recursion performing the
same primitive step (advance bottom past elements below the pivot, retreat top
past elements at least the pivot, otherwise swap — after which the element at
bottom is below the pivot, so the advance that the source loop performs next
is fused in). Returns the final samples and the meeting index bottom. -/
def part1 (s : List α) (pivot : α) (bottom top : ℕ) : List α × ℕ :=
  if _h : bottom < top then
    if s.getD bottom pivot < pivot then part1 s pivot (bottom + 1) top
    else if ¬ s.getD top pivot < pivot then part1 s pivot bottom (top - 1)
    else part1 (listSwap s bottom top) pivot (bottom + 1) top
  else (s, bottom)
termination_by top - bottom
decreasing_by all_goals omega

/-- Embedding of the second partition loop of the free function rank, which
moves elements equal to the pivot to the left; flattened exactly as part1. -/
def part2 (s : List α) (pivot : α) (bottom top : ℕ) : List α × ℕ :=
  if _h : bottom < top then
    if s.getD bottom pivot = pivot then part2 s pivot (bottom + 1) top
    else if ¬ s.getD top pivot = pivot then part2 s pivot bottom (top - 1)
    else part2 (listSwap s bottom top) pivot (bottom + 1) top
  else (s, bottom)
termination_by top - bottom
decreasing_by all_goals omega

/-- Embedding of the main quickselect loop of the free function rank, with
explicit fuel (the loop narrows the window [low, high) each round; callers
pass length + 1 fuel, shown sufficient in the theorems below). -/
def selectLoop : ℕ → List α → ℕ → ℕ → ℕ → Option α
  | 0, _, _, _, _ => none
  | fuel + 1, s, r, low, high =>
    if low < high then
      match s.get? low with
      | none => none
      | some pivot =>
        if low ≥ high - 1 then some pivot
        else
          let pr := part1 s pivot low (high - 1)
          if r ≤ pr.2 then selectLoop fuel pr.1 r low pr.2
          else
            let qr := part2 pr.1 pivot pr.2 (high - 1)
            if r ≤ qr.2 then some pivot
            else selectLoop fuel qr.1 r qr.2 high
    else none

/-- Embedding of the free function rank: assert non-empty and rank in domain,
then Quick Select on a private copy over the whole array. -/
def rank (l : List α) (r : ℕ) : Option α :=
  let length := l.length
  if 0 < length then
    if 0 < r ∧ r ≤ length then selectLoop (length + 1) l r 0 length
    else none
  else none

/-- Embedding of the free function percentile: domain check, length check,
nearest-rank ceiling formula, then Quick Select via rank. -/
def percentile (l : List α) (p : ℕ) : Option α :=
  if 0 < p ∧ p ≤ 100 then
    if 0 < l.length then
      rank l ((⌈(p : ℚ) * (l.length : ℚ) / 100⌉).toNat)
    else none
  else none

/-- Embedding of the free function permille: domain check, length check,
nearest-rank ceiling formula, then Quick Select via rank. -/
def permille (l : List α) (p : ℕ) : Option α :=
  if 0 < p ∧ p ≤ 1000 then
    if 0 < l.length then
      rank l ((⌈(p : ℚ) * (l.length : ℚ) / 1000⌉).toNat)
    else none
  else none

/-- Embedding of the merge sweep loop of calculate_statistic, with explicit
fuel (each round advances a cursor; callers pass n + m + 1 fuel, shown
sufficient in the theorems below). The duplicate-run advances reuse valueWalk,
which is the same loop shape comparing against the element captured at entry. -/
def ksLoop : ℕ → List α → List α → ℕ → ℕ → ℚ → ℚ → ℚ → Option ℚ
  | 0, _, _, _, _, _, _, _ => none
  | fuel + 1, xs, ys, i, j, ecdf_xs, ecdf_ys, statistic =>
    if i < xs.length ∧ j < ys.length then
      match xs.get? i, ys.get? j with
      | some x_i, some y_j =>
        let i1 := valueWalk xs x_i i
        let j1 := valueWalk ys y_j j
        let current := Min.min x_i y_j
        let ecx : ℚ := if current = x_i then ((i1 : ℚ) + 1) / (xs.length : ℚ) else ecdf_xs
        let i2 : ℕ := if current = x_i then i1 + 1 else i1
        let ecy : ℚ := if current = y_j then ((j1 : ℚ) + 1) / (ys.length : ℚ) else ecdf_ys
        let j2 : ℕ := if current = y_j then j1 + 1 else j1
        let diff := |ecx - ecy|
        let stat2 := if diff > statistic then diff else statistic
        ksLoop fuel xs ys i2 j2 ecx ecy stat2
      | _, _ => none
    else some statistic

/-- Embedding of calculate_statistic: assert both samples non-empty, sort
copies of both, then run the synchronized merge sweep from, cursors at 0,
ECDF values 0 and statistic 0. -/
def calculate_statistic (xs ys : List α) : Option ℚ :=
  let n := xs.length
  let m := ys.length
  if 0 < n ∧ 0 < m then
    ksLoop (n + m + 1) (sortAsc xs) (sortAsc ys) 0 0 0 0 0
  else none

/-- Embedding of the brute-force calculate_statistic_alt from the test module:
build both cached ECDFs and take the maximum absolute ECDF difference over
every point of xs then every point of ys. -/
def calculate_statistic_alt (xs ys : List α) : Option ℚ :=
  if 0 < xs.length ∧ 0 < ys.length then
    match Ecdf.new xs, Ecdf.new ys with
    | some ecdf_xs, some ecdf_ys =>
      let stat1 := xs.foldl (fun statistic x =>
        let diff := |ecdf_xs.value x - ecdf_ys.value x|
        if diff > statistic then diff else statistic) 0
      let stat2 := ys.foldl (fun statistic y =>
        let diff := |ecdf_xs.value y - ecdf_ys.value y|
        if diff > statistic then diff else statistic) stat1
      some stat2
    | _, _ => none
  else none

/-- Embedding of calculate_critical_value: the sequence of asserts, then the
closed-form asymptotic formula. -/
noncomputable def calculate_critical_value (n1 n2 : ℕ) (confidence : ℚ) : Option ℝ :=
  if 0 < n1 ∧ 0 < n2 then
    if 0 < confidence ∧ confidence < 1 then
      if 12 < n1 ∧ 12 < n2 then
        if confidence = 0.95 then
          some (1.36 * Real.sqrt (((n1 : ℝ) + (n2 : ℝ)) / ((n1 : ℝ) * (n2 : ℝ))))
        else none
      else none
    else none
  else none

/-- Two sample test result, as in struct TestResult; the f64 comparison
producing is_rejected is modelled as a proposition over the exact values. -/
structure TestResult where
  is_rejected : Prop
  statistic : ℚ
  critical_value : ℝ
  confidence : ℚ

/-- Embedding of test: the sequence of asserts, then statistic, critical value
and the rejection decision. -/
noncomputable def test (xs ys : List α) (confidence : ℚ) : Option TestResult :=
  if 0 < xs.length ∧ 0 < ys.length then
    if 0 < confidence ∧ confidence < 1 then
      if 12 < xs.length ∧ 12 < ys.length then
        if confidence = 0.95 then
          match calculate_statistic xs ys,
              calculate_critical_value xs.length ys.length confidence with
          | some statistic, some critical_value =>
            some { is_rejected := (statistic : ℝ) > critical_value
                   statistic := statistic
                   critical_value := critical_value
                   confidence := confidence }
          | _, _ => none
        else none
      else none
    else none
  else none

/-- Specification-side helper: maximum of a list of rationals and 0, the shape
both statistic computations fold into. -/
def maxOverQ (l : List ℚ) : ℚ := l.foldl max 0

/-- Specification-side helper: the absolute ECDF difference of the two samples
at a point, with the ECDFs written directly as counting fractions. -/
def ecdfDiff (xs ys : List α) (t : α) : ℚ :=
  |(cntLE xs t : ℚ) / (xs.length : ℚ) - (cntLE ys t : ℚ) / (ys.length : ℚ)|

theorem sortAsc_perm (l : List α) : (sortAsc l).Perm l := List.mergeSort_perm l _

theorem sortAsc_sorted (l : List α) : List.Sorted (· ≤ ·) (sortAsc l) := by
  have h := @List.sorted_mergeSort α (fun a b : α => decide (a ≤ b))
    (fun a b c hab hbc => by
      simp only [decide_eq_true_eq] at *
      exact le_trans hab hbc)
    (fun a b => by
      simp only [Bool.or_eq_true, decide_eq_true_eq]
      exact le_total a b) l
  have : (l.mergeSort fun a b => a ≤ b) = l.mergeSort (fun a b : α => decide (a ≤ b)) := rfl
  unfold sortAsc
  rw [this]
  exact List.Pairwise.imp (fun h => by simpa using h) h

theorem sortAsc_length (l : List α) : (sortAsc l).length = l.length :=
  (sortAsc_perm l).length_eq

theorem sortAsc_eq_of_perm {l l' : List α} (h : l.Perm l') : sortAsc l = sortAsc l' := by
  refine List.eq_of_perm_of_sorted ?_ (sortAsc_sorted l) (sortAsc_sorted l')
  exact ((sortAsc_perm l).trans h).trans (sortAsc_perm l').symm

theorem cntLE_le_length (l : List α) (t : α) : cntLE l t ≤ l.length :=
  List.countP_le_length _

theorem cntLT_le_length (l : List α) (t : α) : cntLT l t ≤ l.length :=
  List.countP_le_length _

theorem cntLE_sortAsc (l : List α) (t : α) : cntLE (sortAsc l) t = cntLE l t :=
  (sortAsc_perm l).countP_eq _

theorem cntLT_sortAsc (l : List α) (t : α) : cntLT (sortAsc l) t = cntLT l t :=
  (sortAsc_perm l).countP_eq _

theorem cntLE_mono (l : List α) {s t : α} (h : s ≤ t) : cntLE l s ≤ cntLE l t := by
  unfold cntLE
  exact List.countP_mono_left (fun x _ hx => by
    simp only [decide_eq_true_eq] at *
    exact le_trans hx h)

/-- On a sorted list, the entries with value at most t are exactly the first
cntLE entries. -/
theorem sorted_getD_le_iff {l : List α} (hs : List.Sorted (· ≤ ·) l) {k : ℕ}
    (hk : k < l.length) (t : α) (d : α) : l.getD k d ≤ t ↔ k < cntLE l t := by
  induction l generalizing k with
  | nil => simp at hk
  | cons a l ih =>
    have ha : ∀ x ∈ l, a ≤ x := fun x hx => (List.sorted_cons.mp hs).1 x hx
    have hs' : List.Sorted (· ≤ ·) l := (List.sorted_cons.mp hs).2
    cases k with
    | zero =>
      simp only [List.getD_cons_zero]
      unfold cntLE
      rw [List.countP_cons]
      constructor
      · intro h
        simp [h]
      · intro h
        by_contra hat
        have : l.countP (fun x => x ≤ t) = 0 := by
          rw [List.countP_eq_zero]
          intro x hx
          simp only [decide_eq_true_eq]
          intro hxt
          exact hat (le_trans (ha x hx) hxt)
        rw [this] at h
        simp only [Nat.zero_add] at h
        by_cases hat' : a ≤ t
        · exact hat hat'
        · simp [hat'] at h
    | succ k =>
      simp only [List.getD_cons_succ]
      have hk' : k < l.length := by simpa using hk
      rw [ih hs' hk']
      unfold cntLE
      rw [List.countP_cons]
      by_cases hat : a ≤ t
      · simp [hat]
      · have hzero : l.countP (fun x => x ≤ t) = 0 := by
          rw [List.countP_eq_zero]
          intro x hx
          simp only [decide_eq_true_eq]
          intro hxt
          exact hat (le_trans (ha x hx) hxt)
        rw [hzero]
        simp [hat]

/-- On a sorted list, the entries with value strictly less than t are exactly
the first cntLT entries. -/
theorem sorted_getD_lt_iff {l : List α} (hs : List.Sorted (· ≤ ·) l) {k : ℕ}
    (hk : k < l.length) (t : α) (d : α) : l.getD k d < t ↔ k < cntLT l t := by
  induction l generalizing k with
  | nil => simp at hk
  | cons a l ih =>
    have ha : ∀ x ∈ l, a ≤ x := fun x hx => (List.sorted_cons.mp hs).1 x hx
    have hs' : List.Sorted (· ≤ ·) l := (List.sorted_cons.mp hs).2
    cases k with
    | zero =>
      simp only [List.getD_cons_zero]
      unfold cntLT
      rw [List.countP_cons]
      constructor
      · intro h
        simp [h]
      · intro h
        by_contra hat
        have : l.countP (fun x => x < t) = 0 := by
          rw [List.countP_eq_zero]
          intro x hx
          simp only [decide_eq_true_eq]
          intro hxt
          exact hat (lt_of_le_of_lt (ha x hx) hxt)
        rw [this] at h
        simp only [Nat.zero_add] at h
        by_cases hat' : a < t
        · exact hat hat'
        · simp [hat'] at h
    | succ k =>
      simp only [List.getD_cons_succ]
      have hk' : k < l.length := by simpa using hk
      rw [ih hs' hk']
      unfold cntLT
      rw [List.countP_cons]
      by_cases hat : a < t
      · simp [hat]
      · have hzero : l.countP (fun x => x < t) = 0 := by
          rw [List.countP_eq_zero]
          intro x hx
          simp only [decide_eq_true_eq]
          intro hxt
          exact hat (lt_of_le_of_lt (ha x hx) hxt)
        rw [hzero]
        simp [hat]

theorem cntLT_eq_cntLE_of_not_mem {l : List α} {t : α} (h : t ∉ l) :
    cntLT l t = cntLE l t := by
  unfold cntLT cntLE
  refine List.countP_congr (fun x hx => ?_)
  simp only [decide_eq_true_eq]
  constructor
  · exact le_of_lt
  · intro hle
    rcases lt_or_eq_of_le hle with h1 | h1
    · exact h1
    · exact absurd (h1 ▸ hx) h

theorem getD_of_get? {l : List α} {i : ℕ} {x d : α} (h : l.get? i = some x) :
    l.getD i d = x := by
  rw [List.getD_eq_getElem?_getD, ← List.get?_eq_getElem?, h]
  rfl

theorem get?_eq_some_getD {l : List α} {i : ℕ} (h : i < l.length) (d : α) :
    l.get? i = some (l.getD i d) := by
  rcases List.get?_eq_get h with heq
  rw [heq, List.getD_eq_getElem?_getD, ← List.get?_eq_getElem?, heq]
  rfl

theorem cntLE_eq_cntLT_add_count (l : List α) (t : α) :
    cntLE l t = cntLT l t + l.count t := by
  induction l with
  | nil => simp [cntLE, cntLT]
  | cons a l ih =>
    unfold cntLE cntLT at *
    have hcase : ((a ≤ t) ∧ (a < t) ∧ a ≠ t) ∨ ((a ≤ t) ∧ ¬(a < t) ∧ a = t) ∨
        (¬(a ≤ t) ∧ ¬(a < t) ∧ a ≠ t) := by
      rcases lt_trichotomy a t with h | h | h
      · exact Or.inl ⟨le_of_lt h, h, ne_of_lt h⟩
      · exact Or.inr (Or.inl ⟨le_of_eq h, by rw [h]; exact lt_irrefl t, h⟩)
      · exact Or.inr (Or.inr ⟨not_le_of_lt h, asymm h, ne_of_gt h⟩)
    rcases hcase with ⟨h1, h2, h3⟩ | ⟨h1, h2, h3⟩ | ⟨h1, h2, h3⟩ <;>
      simp [List.countP_cons, List.count_cons, h1, h2, h3] <;> omega

theorem getD_eq_get {l : List α} {i : ℕ} (h : i < l.length) (d : α) :
    l.getD i d = l.get ⟨i, h⟩ := by
  have h1 := get?_eq_some_getD h d
  have h2 := List.get?_eq_get h
  rw [h2] at h1
  exact (Option.some_inj.mp h1).symm

theorem sorted_getD_mono {l : List α} (hs : List.Sorted (· ≤ ·) l) {i j : ℕ}
    (hij : i ≤ j) (hj : j < l.length) (d : α) : l.getD i d ≤ l.getD j d := by
  rcases eq_or_lt_of_le hij with rfl | hlt
  · exact le_rfl
  · have hi : i < l.length := lt_trans hlt hj
    rw [getD_eq_get hi d, getD_eq_get hj d]
    exact List.pairwise_iff_get.mp hs ⟨i, hi⟩ ⟨j, hj⟩ hlt

theorem valueWalk_ge (l : List α) (t : α) (i : ℕ) : i ≤ valueWalk l t i := by
  induction i using valueWalk.induct l t with
  | case1 i h ih =>
    rw [valueWalk, dif_pos h]
    omega
  | case2 i h =>
    rw [valueWalk, dif_neg h]

theorem valueWalk_spec (l : List α) (t : α) (i : ℕ) (h : l.get? i = some t) :
    l.get? (valueWalk l t i) = some t ∧
      (valueWalk l t i + 1 < l.length → l.get? (valueWalk l t i + 1) ≠ some t) := by
  induction i using valueWalk.induct l t with
  | case1 i hc ih =>
    rw [valueWalk, dif_pos hc]
    exact ih hc.2
  | case2 i hc =>
    rw [valueWalk, dif_neg hc]
    refine ⟨h, fun hlt hnext => ?_⟩
    exact hc ⟨hlt, hnext⟩

/-- On a sorted list that contains t, the duplicate walk started at the first
occurrence terminates at index cntLE - 1, the last occurrence. -/
theorem valueWalk_eq_cntLE_sub_one {l : List α} (hs : List.Sorted (· ≤ ·) l) {t : α}
    {i : ℕ} (h : l.get? i = some t) : valueWalk l t i + 1 = cntLE l t := by
  obtain ⟨hmem, hstop⟩ := valueWalk_spec l t i h
  set r := valueWalk l t i with hr
  have hrlen : r < l.length := (List.get?_eq_some.mp hmem).1
  have hrle : l.getD r t ≤ t := le_of_eq (getD_of_get? hmem)
  have h1 : r < cntLE l t := (sorted_getD_le_iff hs hrlen t t).mp hrle
  have h2 : cntLE l t ≤ r + 1 := by
    by_contra hcon
    push_neg at hcon
    have hr1len : r + 1 < l.length := lt_of_lt_of_le hcon (cntLE_le_length l t)
    have hle : l.getD (r + 1) t ≤ t := (sorted_getD_le_iff hs hr1len t t).mpr hcon
    have hge : t ≤ l.getD (r + 1) t := by
      have hgd : l.getD r t = t := getD_of_get? hmem
      calc t = l.getD r t := hgd.symm
        _ ≤ l.getD (r + 1) t := sorted_getD_mono hs (Nat.le_succ r) hr1len t
    have : l.getD (r + 1) t = t := le_antisymm hle hge
    exact hstop hr1len (by rw [← this]; exact get?_eq_some_getD hr1len t)
  omega

/-- On a sorted list containing t, the first occurrence of t sits at index
cntLT. -/
theorem get?_cntLT_eq {l : List α} (hs : List.Sorted (· ≤ ·) l) {t : α}
    (hmem : t ∈ l) : l.get? (cntLT l t) = some t := by
  have hcount : 0 < l.count t := List.count_pos_iff.mpr hmem
  have hlt : cntLT l t < cntLE l t := by
    have := cntLE_eq_cntLT_add_count l t
    omega
  have hlen : cntLT l t < l.length := lt_of_lt_of_le hlt (cntLE_le_length l t)
  have hle : l.getD (cntLT l t) t ≤ t := (sorted_getD_le_iff hs hlen t t).mpr hlt
  have hnlt : ¬ l.getD (cntLT l t) t < t := by
    intro hc
    have := (sorted_getD_lt_iff hs hlen t t).mp hc
    omega
  have heq : l.getD (cntLT l t) t = t := le_antisymm hle (not_lt.mp hnlt)
  have hfinal := get?_eq_some_getD hlen t
  rw [heq] at hfinal
  exact hfinal

/-- Core characterization used by C3: on a sorted list, the numerator computed
by Ecdf::value is the count of elements at most t. -/
theorem value_num_eq {l : List α} (hs : List.Sorted (· ≤ ·) l) (t : α) :
    (match binarySearchSorted l t with
      | .found index => valueWalk l t index + 1
      | .notFound index => index) = cntLE l t := by
  unfold binarySearchSorted
  by_cases hmem : t ∈ l
  · rw [if_pos hmem]
    exact valueWalk_eq_cntLE_sub_one hs (get?_cntLT_eq hs hmem)
  · rw [if_neg hmem]
    exact cntLT_eq_cntLE_of_not_mem hmem

theorem Ecdf.new_some {l : List α} (hl : 0 < l.length) :
    Ecdf.new l = some { samples := sortAsc l, length := l.length } := by
  rw [Ecdf.new, if_pos hl]

theorem Ecdf.value_mk (l : List α) (t : α) :
    Ecdf.value { samples := sortAsc l, length := l.length } t
      = (cntLE l t : ℚ) / (l.length : ℚ) := by
  simp only [Ecdf.value]
  rw [value_num_eq (sortAsc_sorted l) t, cntLE_sortAsc]

theorem value_nonneg_le_one {l : List α} (hl : 0 < l.length) (t : α) :
    0 ≤ (cntLE l t : ℚ) / (l.length : ℚ) ∧ (cntLE l t : ℚ) / (l.length : ℚ) ≤ 1 := by
  have hlen : (0 : ℚ) < (l.length : ℚ) := by exact_mod_cast hl
  constructor
  · exact div_nonneg (by positivity) (le_of_lt hlen)
  · rw [div_le_one hlen]
    exact_mod_cast cntLE_le_length l t

theorem sorted_head_le {l : List α} (hs : List.Sorted (· ≤ ·) l) {a : α}
    (h : l.get? 0 = some a) : ∀ x ∈ l, a ≤ x := by
  intro x hx
  obtain ⟨⟨k, hk⟩, hget⟩ := List.mem_iff_get.mp hx
  have h0 : l.getD 0 a = a := getD_of_get? h
  calc a = l.getD 0 a := h0.symm
    _ ≤ l.getD k a := sorted_getD_mono hs (Nat.zero_le k) hk a
    _ = x := by rw [getD_eq_get hk a, hget]

theorem sorted_le_last {l : List α} (hs : List.Sorted (· ≤ ·) l) {a : α}
    (h : l.get? (l.length - 1) = some a) : ∀ x ∈ l, x ≤ a := by
  intro x hx
  obtain ⟨⟨k, hk⟩, hget⟩ := List.mem_iff_get.mp hx
  have hlast : l.length - 1 < l.length := by omega
  have h0 : l.getD (l.length - 1) a = a := getD_of_get? h
  calc x = l.getD k a := by rw [getD_eq_get hk a, hget]
    _ ≤ l.getD (l.length - 1) a := sorted_getD_mono hs (by omega) hlast a
    _ = a := h0

/-- C3: for every non-empty sample and every query value t, the cached ECDF
value at t is the count of elements at most t divided by the length, and that
value lies in [0, 1]; this holds whether or not the binary search finds t,
through the duplicate walk in the found branch and the insertion-index count
in the not-found branch. -/
theorem claim_C3_value_counts (l : List α) (hl : l ≠ []) (t : α) :
    (Ecdf.new l).map (fun e => e.value t)
        = some ((cntLE l t : ℚ) / (l.length : ℚ)) ∧
      ∀ e ∈ Ecdf.new l, 0 ≤ e.value t ∧ e.value t ≤ 1 := by
  have hl' : 0 < l.length := List.length_pos.mpr hl
  rw [Ecdf.new_some hl']
  constructor
  · simp [Ecdf.value_mk]
  · intro e he
    simp only [Option.mem_def, Option.some_inj] at he
    subst he
    rw [Ecdf.value_mk]
    exact value_nonneg_le_one hl' t

theorem claim_C3_value_counts_witness :
    (([5, 3, 3, 1] : List ℤ) ≠ []) ∧
      ((Ecdf.new ([5, 3, 3, 1] : List ℤ)).map (fun e => e.value 3)
          = some ((cntLE ([5, 3, 3, 1] : List ℤ) 3 : ℚ) / ((4 : ℕ) : ℚ)) ∧
        ∀ e ∈ Ecdf.new ([5, 3, 3, 1] : List ℤ), 0 ≤ e.value 3 ∧ e.value 3 ≤ 1) :=
  ⟨by decide, claim_C3_value_counts [5, 3, 3, 1] (by decide) 3⟩

/-- C10: for every Ecdf built from a non-empty sample, construction succeeds
and value is total with no further precondition: the value lies in [0, 1] for
every query, the index the binary search hands to the duplicate walk stays in
bounds and so does the walk result, the not-found insertion index is at most
the length (it may equal it and is only used as a count), and min and max are
defined; this contrasts with percentile, permille and rank, which reject
out-of-domain arguments. -/
theorem claim_C10_value_total (l : List α) (hl : l ≠ []) :
    (∃ e, Ecdf.new l = some e) ∧
      ∀ e ∈ Ecdf.new l, ∀ t : α,
        (0 ≤ e.value t ∧ e.value t ≤ 1) ∧
        (∀ idx, binarySearchSorted e.samples t = .found idx →
          idx < e.samples.length ∧ valueWalk e.samples t idx < e.samples.length) ∧
        (∀ idx, binarySearchSorted e.samples t = .notFound idx →
          idx ≤ e.samples.length) ∧
        (∃ a, e.min = some a) ∧ (∃ b, e.max = some b) := by
  have hl' : 0 < l.length := List.length_pos.mpr hl
  rw [Ecdf.new_some hl']
  refine ⟨⟨_, rfl⟩, ?_⟩
  intro e he t
  simp only [Option.mem_def, Option.some_inj] at he
  subst he
  have hslen : (sortAsc l).length = l.length := sortAsc_length l
  refine ⟨?_, ?_, ?_, ?_, ?_⟩
  · rw [Ecdf.value_mk]
    exact value_nonneg_le_one hl' t
  · intro idx hfound
    simp only [binarySearchSorted] at hfound
    by_cases hmem : t ∈ sortAsc l
    · rw [if_pos hmem] at hfound
      cases hfound
      have hfirst := get?_cntLT_eq (sortAsc_sorted l) hmem
      have hidx : cntLT (sortAsc l) t < (sortAsc l).length :=
        (List.get?_eq_some.mp hfirst).1
      refine ⟨hidx, ?_⟩
      have := (valueWalk_spec (sortAsc l) t _ hfirst).1
      exact (List.get?_eq_some.mp this).1
    · rw [if_neg hmem] at hfound
      cases hfound
  · intro idx hnf
    simp only [binarySearchSorted] at hnf
    by_cases hmem : t ∈ sortAsc l
    · rw [if_pos hmem] at hnf
      cases hnf
    · rw [if_neg hmem] at hnf
      cases hnf
      exact cntLT_le_length (sortAsc l) t
  · have h0 : 0 < (sortAsc l).length := by omega
    exact ⟨_, List.get?_eq_get h0⟩
  · have h0 : (sortAsc l).length - 1 < (sortAsc l).length := by omega
    exact ⟨_, List.get?_eq_get h0⟩

theorem claim_C10_value_total_witness :
    (([2, 2, 7] : List ℤ) ≠ []) ∧
      ((∃ e, Ecdf.new ([2, 2, 7] : List ℤ) = some e) ∧
        ∀ e ∈ Ecdf.new ([2, 2, 7] : List ℤ), ∀ t : ℤ,
          (0 ≤ e.value t ∧ e.value t ≤ 1) ∧
          (∀ idx, binarySearchSorted e.samples t = .found idx →
            idx < e.samples.length ∧ valueWalk e.samples t idx < e.samples.length) ∧
          (∀ idx, binarySearchSorted e.samples t = .notFound idx →
            idx ≤ e.samples.length) ∧
          (∃ a, e.min = some a) ∧ (∃ b, e.max = some b)) :=
  ⟨by decide, claim_C10_value_total [2, 2, 7] (by decide)⟩

theorem get?_isSome_iff {l : List α} {i : ℕ} : (l.get? i).isSome ↔ i < l.length := by
  rw [Option.isSome_iff_ne_none, Ne, List.get?_eq_none]
  omega

/-- Bounds for the nearest-rank ceiling formula: with 1 ≤ p ≤ d and a
non-empty sample, the computed rank is a valid 1-indexed rank. -/
theorem ceil_rank_bounds {p len : ℕ} (d : ℚ) (hp : 1 ≤ p) (hd : 0 < d)
    (hpd : (p : ℚ) ≤ d) (hlen : 0 < len) :
    1 ≤ (⌈(p : ℚ) * (len : ℚ) / d⌉).toNat ∧ (⌈(p : ℚ) * (len : ℚ) / d⌉).toNat ≤ len := by
  have hp' : (0 : ℚ) < (p : ℚ) := by exact_mod_cast hp
  have hlen' : (0 : ℚ) < (len : ℚ) := by exact_mod_cast hlen
  have hpos : 0 < (p : ℚ) * (len : ℚ) / d := by positivity
  have hceil_pos : 0 < ⌈(p : ℚ) * (len : ℚ) / d⌉ := Int.ceil_pos.mpr hpos
  have hle : (p : ℚ) * (len : ℚ) / d ≤ (len : ℚ) := by
    rw [div_le_iff₀ hd]
    calc (p : ℚ) * (len : ℚ) ≤ d * (len : ℚ) :=
          mul_le_mul_of_nonneg_right hpd (le_of_lt hlen')
      _ = (len : ℚ) * d := mul_comm d _
  have hceil_le : ⌈(p : ℚ) * (len : ℚ) / d⌉ ≤ (len : ℤ) :=
    Int.ceil_le.mpr (by exact_mod_cast hle)
  omega

/-- C5: for a cached Ecdf over a non-empty sample, percentile accepts exactly
1..100, permille exactly 1..1000 and rank exactly 1..length, aborting
otherwise; on a valid argument each returns the entry of the ascending-sorted
copy at the 1-indexed nearest-rank position minus one, so rank 1 is the
minimum and rank length is the maximum of the sample. -/
theorem claim_C5_rank_selection (l : List α) (hl : l ≠ []) :
    ∀ e ∈ Ecdf.new l,
      ((∀ p : ℕ, (e.percentile p).isSome ↔ 1 ≤ p ∧ p ≤ 100) ∧
        (∀ p : ℕ, (e.permille p).isSome ↔ 1 ≤ p ∧ p ≤ 1000) ∧
        (∀ r : ℕ, (e.rank r).isSome ↔ 1 ≤ r ∧ r ≤ l.length)) ∧
      ((∀ p : ℕ, 1 ≤ p → p ≤ 100 → e.percentile p
          = (sortAsc l).get? ((⌈(p : ℚ) * (l.length : ℚ) / 100⌉).toNat - 1)) ∧
        (∀ p : ℕ, 1 ≤ p → p ≤ 1000 → e.permille p
          = (sortAsc l).get? ((⌈(p : ℚ) * (l.length : ℚ) / 1000⌉).toNat - 1)) ∧
        (∀ r : ℕ, 1 ≤ r → r ≤ l.length → e.rank r = (sortAsc l).get? (r - 1))) ∧
      ((∀ a ∈ e.rank 1, ∀ x ∈ l, a ≤ x) ∧
        (∀ a ∈ e.rank l.length, ∀ x ∈ l, x ≤ a)) := by
  have hl' : 0 < l.length := List.length_pos.mpr hl
  rw [Ecdf.new_some hl']
  intro e he
  simp only [Option.mem_def, Option.some_inj] at he
  subst he
  have hslen : (sortAsc l).length = l.length := sortAsc_length l
  refine ⟨⟨?_, ?_, ?_⟩, ⟨?_, ?_, ?_⟩, ?_, ?_⟩
  · intro p
    simp only [Ecdf.percentile]
    by_cases hp : 0 < p ∧ p ≤ 100
    · rw [if_pos hp]
      obtain ⟨h1, h2⟩ :=
        ceil_rank_bounds (100 : ℚ) hp.1 (by norm_num) (by exact_mod_cast hp.2) hl'
      simp only [get?_isSome_iff]
      omega
    · rw [if_neg hp]
      simpa using fun h1 h2 => hp ⟨h1, h2⟩
  · intro p
    simp only [Ecdf.permille]
    by_cases hp : 0 < p ∧ p ≤ 1000
    · rw [if_pos hp]
      obtain ⟨h1, h2⟩ :=
        ceil_rank_bounds (1000 : ℚ) hp.1 (by norm_num) (by exact_mod_cast hp.2) hl'
      simp only [get?_isSome_iff]
      omega
    · rw [if_neg hp]
      simpa using fun h1 h2 => hp ⟨h1, h2⟩
  · intro r
    simp only [Ecdf.rank, hslen]
    by_cases hr : 0 < r ∧ r ≤ l.length
    · rw [if_pos hr]
      simp only [get?_isSome_iff, hslen]
      omega
    · rw [if_neg hr]
      simpa using fun h1 h2 => hr ⟨h1, h2⟩
  · intro p h1 h2
    simp only [Ecdf.percentile]
    rw [if_pos ⟨h1, h2⟩]
  · intro p h1 h2
    simp only [Ecdf.permille]
    rw [if_pos ⟨h1, h2⟩]
  · intro r h1 h2
    simp only [Ecdf.rank, hslen]
    rw [if_pos ⟨h1, h2⟩]
  · intro a ha x hx
    simp only [Ecdf.rank, hslen, Option.mem_def] at ha
    rw [if_pos ⟨by omega, by omega⟩] at ha
    exact sorted_head_le (sortAsc_sorted l) ha x ((sortAsc_perm l).mem_iff.mpr hx)
  · intro a ha x hx
    simp only [Ecdf.rank, hslen, Option.mem_def] at ha
    rw [if_pos ⟨by omega, by omega⟩] at ha
    rw [← hslen] at ha
    exact sorted_le_last (sortAsc_sorted l) ha x ((sortAsc_perm l).mem_iff.mpr hx)

theorem claim_C5_rank_selection_witness :
    (([4, 1, 3, 2] : List ℤ) ≠ []) ∧
      ∀ e ∈ Ecdf.new ([4, 1, 3, 2] : List ℤ),
        ((∀ p : ℕ, (e.percentile p).isSome ↔ 1 ≤ p ∧ p ≤ 100) ∧
          (∀ p : ℕ, (e.permille p).isSome ↔ 1 ≤ p ∧ p ≤ 1000) ∧
          (∀ r : ℕ, (e.rank r).isSome ↔ 1 ≤ r ∧ r ≤ (4 : ℕ))) ∧
        ((∀ p : ℕ, 1 ≤ p → p ≤ 100 → e.percentile p
            = (sortAsc ([4, 1, 3, 2] : List ℤ)).get?
              ((⌈(p : ℚ) * ((4 : ℕ) : ℚ) / 100⌉).toNat - 1)) ∧
          (∀ p : ℕ, 1 ≤ p → p ≤ 1000 → e.permille p
            = (sortAsc ([4, 1, 3, 2] : List ℤ)).get?
              ((⌈(p : ℚ) * ((4 : ℕ) : ℚ) / 1000⌉).toNat - 1)) ∧
          (∀ r : ℕ, 1 ≤ r → r ≤ (4 : ℕ) → e.rank r
            = (sortAsc ([4, 1, 3, 2] : List ℤ)).get? (r - 1))) ∧
        ((∀ a ∈ e.rank 1, ∀ x ∈ ([4, 1, 3, 2] : List ℤ), a ≤ x) ∧
          (∀ a ∈ e.rank (4 : ℕ), ∀ x ∈ ([4, 1, 3, 2] : List ℤ), x ≤ a)) :=
  ⟨by decide, claim_C5_rank_selection [4, 1, 3, 2] (by decide)⟩

/-- C8: for every non-empty sample and percentile p in 1..100, the percentile
equals the permille at p * 10, both for the one-shot free functions and for
the cached Ecdf methods, because the two nearest-rank formulas compute the
same rank. -/
theorem claim_C8_percentile_eq_permille (l : List α) (hl : l ≠ []) (p : ℕ)
    (hp1 : 1 ≤ p) (hp2 : p ≤ 100) :
    percentile l p = permille l (p * 10) ∧
      ∀ e ∈ Ecdf.new l, e.percentile p = e.permille (p * 10) := by
  have hl' : 0 < l.length := List.length_pos.mpr hl
  have harg : ∀ L : ℚ, ((p * 10 : ℕ) : ℚ) * L / 1000 = (p : ℚ) * L / 100 := by
    intro L
    push_cast
    ring
  constructor
  · simp only [percentile, permille]
    rw [if_pos ⟨by omega, hp2⟩, if_pos hl', if_pos ⟨by omega, by omega⟩, if_pos hl',
      harg (l.length : ℚ)]
  · rw [Ecdf.new_some hl']
    intro e he
    simp only [Option.mem_def, Option.some_inj] at he
    subst he
    simp only [Ecdf.percentile, Ecdf.permille]
    rw [if_pos ⟨by omega, hp2⟩, if_pos ⟨by omega, by omega⟩]
    rw [harg]

theorem claim_C8_percentile_eq_permille_witness :
    ((([9, 8, 7] : List ℤ) ≠ []) ∧ 1 ≤ 30 ∧ 30 ≤ 100) ∧
      (percentile ([9, 8, 7] : List ℤ) 30 = permille ([9, 8, 7] : List ℤ) (30 * 10) ∧
        ∀ e ∈ Ecdf.new ([9, 8, 7] : List ℤ), e.percentile 30 = e.permille (30 * 10)) :=
  ⟨⟨by decide, by decide, by decide⟩,
    claim_C8_percentile_eq_permille [9, 8, 7] (by decide) 30 (by decide) (by decide)⟩

theorem set_get?_self {s : List α} {i : ℕ} {a : α} (h : s.get? i = some a) :
    s.set i a = s := by
  apply List.ext_get?
  intro n
  by_cases hn : i = n
  · subst hn
    rw [List.get?_set_eq_of_lt _ (List.get?_eq_some.mp h).1, h]
  · rw [List.get?_set_ne _ _ hn]

theorem count_listSwap (s : List α) (i j : ℕ) (c : α) :
    (listSwap s i j).count c = s.count c := by
  unfold listSwap
  cases h1 : s.get? i with
  | none => rfl
  | some a =>
    cases h2 : s.get? j with
    | none => rfl
    | some b =>
      have hi : i < s.length := (List.get?_eq_some.mp h1).1
      have hj : j < s.length := (List.get?_eq_some.mp h2).1
      have hsa : s[i] = a := by
        rcases List.get?_eq_some.mp h1 with ⟨h', hg⟩
        simpa [List.get_eq_getElem] using hg
      by_cases hij : i = j
      · subst hij
        show ((s.set i b).set i a).count c = s.count c
        rw [List.set_set]
        have hab : a = b := by rw [h1] at h2; exact Option.some_inj.mp h2
        subst hab
        rw [set_get?_self h1]
      · show ((s.set i b).set j a).count c = s.count c
        have hj' : j < (s.set i b).length := by rw [List.length_set]; exact hj
        have hsb : (s.set i b)[j] = s[j] := by
          have e1 : (s.set i b)[j]? = s[j]? := by
            rw [← List.get?_eq_getElem?, ← List.get?_eq_getElem?, List.get?_set_ne _ _ hij]
          have e2 : (s.set i b)[j]? = some ((s.set i b)[j]) := List.getElem?_eq_getElem hj'
          have e3 : s[j]? = some (s[j]) := List.getElem?_eq_getElem hj
          rw [e2, e3] at e1
          exact Option.some_inj.mp e1
        have hsj : s[j] = b := by
          rcases List.get?_eq_some.mp h2 with ⟨h', hg⟩
          simpa [List.get_eq_getElem] using hg
        have hmem_a : a = c → 1 ≤ s.count c := by
          intro hac
          subst hac
          exact List.count_pos_iff.mpr (by rw [← hsa]; exact List.getElem_mem hi)
        rw [List.count_set _ _ _ _ hj', List.count_set _ _ _ _ hi, hsb, hsa, hsj]
        set p : ℕ := if (a == c) = true then 1 else 0 with hp
        set q : ℕ := if (b == c) = true then 1 else 0 with hq
        have hple : p ≤ s.count c := by
          rw [hp]
          by_cases hc : (a == c) = true
          · rw [if_pos hc]
            exact hmem_a (beq_iff_eq.mp hc)
          · rw [if_neg hc]
            omega
        omega

theorem listSwap_perm (s : List α) (i j : ℕ) : (listSwap s i j).Perm s :=
  List.perm_iff_count.mpr (count_listSwap s i j)

theorem listSwap_length (s : List α) (i j : ℕ) : (listSwap s i j).length = s.length :=
  (listSwap_perm s i j).length_eq

theorem listSwap_get?_ne (s : List α) {i j k : ℕ} (hki : k ≠ i) (hkj : k ≠ j) :
    (listSwap s i j).get? k = s.get? k := by
  unfold listSwap
  cases h1 : s.get? i with
  | none => rfl
  | some a =>
    cases h2 : s.get? j with
    | none => rfl
    | some b =>
      rw [List.get?_set_ne _ _ (Ne.symm hkj), List.get?_set_ne _ _ (Ne.symm hki)]

theorem listSwap_get?_snd {s : List α} {i j : ℕ} {a b : α}
    (h1 : s.get? i = some a) (h2 : s.get? j = some b) :
    (listSwap s i j).get? j = some a := by
  unfold listSwap
  rw [h1, h2]
  have hj : j < s.length := (List.get?_eq_some.mp h2).1
  exact List.get?_set_eq_of_lt _ (by rw [List.length_set]; exact hj)

theorem listSwap_get?_fst {s : List α} {i j : ℕ} {a b : α} (hij : i ≠ j)
    (h1 : s.get? i = some a) (h2 : s.get? j = some b) :
    (listSwap s i j).get? i = some b := by
  unfold listSwap
  rw [h1, h2]
  have hi : i < s.length := (List.get?_eq_some.mp h1).1
  rw [List.get?_set_ne _ _ (Ne.symm hij)]
  exact List.get?_set_eq_of_lt _ hi

/-- Window of a list between two indices, [low, high). -/
def window (s : List α) (low high : ℕ) : List α := (s.drop low).take (high - low)

theorem window_length {s : List α} {low high : ℕ} (h1 : low ≤ high)
    (h2 : high ≤ s.length) : (window s low high).length = high - low := by
  unfold window
  rw [List.length_take, List.length_drop]
  omega

theorem window_get? (s : List α) (low high k : ℕ) (hk : k < high - low) :
    (window s low high).get? k = s.get? (low + k) := by
  unfold window
  rw [List.get?_take hk, List.get?_drop]

theorem mem_window_iff {s : List α} {low high : ℕ} {x : α} (h2 : high ≤ s.length) :
    x ∈ window s low high ↔ ∃ k, low ≤ k ∧ k < high ∧ s.get? k = some x := by
  constructor
  · intro hx
    obtain ⟨n, hn⟩ := List.mem_iff_get?.mp hx
    have hnlen : n < (window s low high).length := (List.get?_eq_some.mp hn).1
    by_cases hlh : low ≤ high
    · have hwl := window_length hlh h2
      rw [hwl] at hnlen
      refine ⟨low + n, by omega, by omega, ?_⟩
      rw [← window_get? s low high n (by omega)]
      exact hn
    · have : window s low high = [] := by
        unfold window
        have : high - low = 0 := by omega
        rw [this, List.take_zero]
      rw [this] at hx
      simp at hx
  · rintro ⟨k, hk1, hk2, hk3⟩
    rw [List.mem_iff_get?]
    refine ⟨k - low, ?_⟩
    rw [window_get? s low high (k - low) (by omega)]
    have : low + (k - low) = k := by omega
    rw [this]
    exact hk3

theorem window_split (s : List α) {low mid high : ℕ} (h1 : low ≤ mid) (h2 : mid ≤ high) :
    window s low high = window s low mid ++ window s mid high := by
  unfold window
  have hsum : high - low = (mid - low) + (high - mid) := by omega
  rw [hsum, List.take_add, List.drop_drop]
  have : low + (mid - low) = mid := by omega
  rw [this]

theorem drop_eq_window_append {s : List α} {low high : ℕ} (h1 : low ≤ high) :
    s.drop low = window s low high ++ s.drop high := by
  unfold window
  have : s.drop high = (s.drop low).drop (high - low) := by
    rw [List.drop_drop]
    congr 1
    omega
  rw [this, List.take_append_drop]

theorem take_eq_append_window {s : List α} {low high : ℕ} (h1 : low ≤ high) :
    s.take high = s.take low ++ window s low high := by
  unfold window
  have : high = low + (high - low) := by omega
  rw [this, List.take_add]
  congr 2
  omega

theorem take_congr {l₁ l₂ : List α} (n : ℕ)
    (h : ∀ k, k < n → l₁.get? k = l₂.get? k) (hlen : l₁.length = l₂.length) :
    l₁.take n = l₂.take n := by
  apply List.ext_get?
  intro k
  by_cases hk : k < n
  · rw [List.get?_take hk, List.get?_take hk]
    exact h k hk
  · have h1 : (l₁.take n).get? k = none := by
      rw [List.get?_eq_none]
      rw [List.length_take]
      omega
    have h2 : (l₂.take n).get? k = none := by
      rw [List.get?_eq_none]
      rw [List.length_take]
      omega
    rw [h1, h2]

theorem drop_congr {l₁ l₂ : List α} (n : ℕ) (hlen : l₁.length = l₂.length)
    (h : ∀ k, n ≤ k → l₁.get? k = l₂.get? k) : l₁.drop n = l₂.drop n := by
  apply List.ext_get?
  intro k
  rw [List.get?_drop, List.get?_drop]
  exact h (n + k) (by omega)

/-- Permutation transfer to a window: two permuted lists that agree outside
[low, high) have permuted windows. -/
theorem window_perm_of {s₁ s₂ : List α} {low high : ℕ} (hperm : s₁.Perm s₂)
    (houts : ∀ k, k < low ∨ high ≤ k → s₁.get? k = s₂.get? k)
    (hlh : low ≤ high) (hhs : high ≤ s₂.length) :
    (window s₁ low high).Perm (window s₂ low high) := by
  have hlen : s₁.length = s₂.length := hperm.length_eq
  have htake : s₁.take low = s₂.take low :=
    take_congr low (fun k hk => houts k (Or.inl hk)) hlen
  have hdrop : s₁.drop high = s₂.drop high :=
    drop_congr high hlen (fun k hk => houts k (Or.inr hk))
  have hd1 : s₁.drop low = window s₁ low high ++ s₁.drop high :=
    drop_eq_window_append hlh
  have hd2 : s₂.drop low = window s₂ low high ++ s₂.drop high :=
    drop_eq_window_append hlh
  have hsplit1 : s₁.take low ++ s₁.drop low = s₁ := List.take_append_drop low s₁
  have hsplit2 : s₂.take low ++ s₂.drop low = s₂ := List.take_append_drop low s₂
  have hperm' : (s₁.take low ++ s₁.drop low).Perm (s₂.take low ++ s₂.drop low) := by
    rw [hsplit1, hsplit2]; exact hperm
  rw [htake] at hperm'
  have hdropsperm : (s₁.drop low).Perm (s₂.drop low) :=
    (List.perm_append_left_iff _).mp hperm'
  rw [hd1, hd2, hdrop] at hdropsperm
  exact (List.perm_append_right_iff _).mp hdropsperm

theorem getD_congr {l₁ l₂ : List α} {k : ℕ} (h : l₁.get? k = l₂.get? k) (d : α) :
    l₁.getD k d = l₂.getD k d := by
  rw [List.getD_eq_getElem?_getD, List.getD_eq_getElem?_getD, ← List.get?_eq_getElem?,
    ← List.get?_eq_getElem?, h]

theorem part1_eq_advance {s : List α} {pivot : α} {bottom top : ℕ} (h : bottom < top)
    (hc : s.getD bottom pivot < pivot) :
    part1 s pivot bottom top = part1 s pivot (bottom + 1) top := by
  rw [part1, dif_pos h, if_pos hc]

theorem part1_eq_retreat {s : List α} {pivot : α} {bottom top : ℕ} (h : bottom < top)
    (hc1 : ¬ s.getD bottom pivot < pivot) (hc2 : ¬ s.getD top pivot < pivot) :
    part1 s pivot bottom top = part1 s pivot bottom (top - 1) := by
  rw [part1, dif_pos h, if_neg hc1, if_pos hc2]

theorem part1_eq_swap {s : List α} {pivot : α} {bottom top : ℕ} (h : bottom < top)
    (hc1 : ¬ s.getD bottom pivot < pivot) (hc2 : s.getD top pivot < pivot) :
    part1 s pivot bottom top = part1 (listSwap s bottom top) pivot (bottom + 1) top := by
  rw [part1, dif_pos h, if_neg hc1, if_neg (not_not_intro hc2)]

theorem part1_eq_exit {s : List α} {pivot : α} {bottom top : ℕ} (h : ¬ bottom < top) :
    part1 s pivot bottom top = (s, bottom) := by
  rw [part1, dif_neg h]

theorem part1_mono (s : List α) (pivot : α) (bottom top : ℕ) :
    bottom ≤ (part1 s pivot bottom top).2 := by
  induction s, pivot, bottom, top using part1.induct with
  | case1 s pivot bottom top h hc ih =>
    rw [part1_eq_advance h hc]
    omega
  | case2 s pivot bottom top h hc1 hc2 ih =>
    rw [part1_eq_retreat h hc1 hc2]
    exact ih
  | case3 s pivot bottom top h hc1 hc2 ih =>
    rw [part1_eq_swap h hc1 (not_not.mp hc2)]
    omega
  | case4 s pivot bottom top h =>
    rw [part1_eq_exit h]

theorem part1_stay (s : List α) (pivot : α) (bottom top : ℕ)
    (hb : ¬ s.getD bottom pivot < pivot) (heq : (part1 s pivot bottom top).2 = bottom) :
    (part1 s pivot bottom top).1 = s := by
  induction s, pivot, bottom, top using part1.induct with
  | case1 s pivot bottom top h hc ih => exact absurd hc hb
  | case2 s pivot bottom top h hc1 hc2 ih =>
    rw [part1_eq_retreat h hc1 hc2] at heq ⊢
    exact ih hb heq
  | case3 s pivot bottom top h hc1 hc2 ih =>
    rw [part1_eq_swap h hc1 (not_not.mp hc2)] at heq
    have := part1_mono (listSwap s bottom top) pivot (bottom + 1) top
    omega
  | case4 s pivot bottom top h =>
    rw [part1_eq_exit h]

/-- Correctness of the first partition loop: starting from a state whose left
zone is below the pivot, whose right zone is at least the pivot, and where at
least one of the two cursors does not point below the pivot (true initially
because the pivot itself sits at the bottom cursor), the loop permutes the
window only, and ends with a meeting index separating values below the pivot
from values at least the pivot. -/
theorem part1_spec (lo hi : ℕ) (s : List α) (pivot : α) (bottom top : ℕ) :
    lo ≤ bottom → bottom ≤ top → top ≤ hi → hi < s.length →
    (∀ k, lo ≤ k → k < bottom → s.getD k pivot < pivot) →
    (∀ k, top < k → k ≤ hi → ¬ s.getD k pivot < pivot) →
    (¬ s.getD bottom pivot < pivot ∨ ¬ s.getD top pivot < pivot) →
    (part1 s pivot bottom top).1.Perm s ∧
      (∀ k, k < lo ∨ hi < k → (part1 s pivot bottom top).1.get? k = s.get? k) ∧
      bottom ≤ (part1 s pivot bottom top).2 ∧ (part1 s pivot bottom top).2 ≤ top ∧
      (∀ k, lo ≤ k → k < (part1 s pivot bottom top).2 →
        (part1 s pivot bottom top).1.getD k pivot < pivot) ∧
      (∀ k, (part1 s pivot bottom top).2 ≤ k → k ≤ hi →
        ¬ (part1 s pivot bottom top).1.getD k pivot < pivot) := by
  induction s, pivot, bottom, top using part1.induct with
  | case1 s pivot bottom top h hc ih =>
    intro h1 h2 h3 h4 hleft hright hH
    rw [part1_eq_advance h hc]
    have hH' : ¬ s.getD (bottom + 1) pivot < pivot ∨ ¬ s.getD top pivot < pivot := by
      rcases hH with hx | hx
      · exact absurd hc hx
      · exact Or.inr hx
    have hleft' : ∀ k, lo ≤ k → k < bottom + 1 → s.getD k pivot < pivot := by
      intro k hk1 hk2
      rcases Nat.lt_succ_iff_lt_or_eq.mp hk2 with hk | hk
      · exact hleft k hk1 hk
      · subst hk; exact hc
    obtain ⟨c1, c2, c3, c4, c5, c6⟩ :=
      ih (by omega) (by omega) h3 h4 hleft' hright hH'
    exact ⟨c1, c2, by omega, c4, c5, c6⟩
  | case2 s pivot bottom top h hc1 hc2 ih =>
    intro h1 h2 h3 h4 hleft hright hH
    rw [part1_eq_retreat h hc1 hc2]
    have hright' : ∀ k, top - 1 < k → k ≤ hi → ¬ s.getD k pivot < pivot := by
      intro k hk1 hk2
      by_cases hk : k = top
      · subst hk; exact hc2
      · exact hright k (by omega) hk2
    obtain ⟨c1, c2, c3, c4, c5, c6⟩ :=
      ih h1 (by omega) (by omega) h4 hleft hright' (Or.inl hc1)
    exact ⟨c1, c2, c3, by omega, c5, c6⟩
  | case3 s pivot bottom top h hc1 hc2 ih =>
    intro h1 h2 h3 h4 hleft hright hH
    have hc2' : s.getD top pivot < pivot := not_not.mp hc2
    rw [part1_eq_swap h hc1 hc2']
    have hblen : bottom < s.length := by omega
    have htlen : top < s.length := by omega
    have hbt : bottom ≠ top := by omega
    have hgb := get?_eq_some_getD hblen pivot
    have hgt := get?_eq_some_getD htlen pivot
    have hfst : (listSwap s bottom top).get? bottom = some (s.getD top pivot) :=
      listSwap_get?_fst hbt hgb hgt
    have hsnd : (listSwap s bottom top).get? top = some (s.getD bottom pivot) :=
      listSwap_get?_snd hgb hgt
    have hgdb : (listSwap s bottom top).getD bottom pivot = s.getD top pivot :=
      getD_of_get? hfst
    have hgdt : (listSwap s bottom top).getD top pivot = s.getD bottom pivot :=
      getD_of_get? hsnd
    have hlen' : (listSwap s bottom top).length = s.length := listSwap_length s bottom top
    have hne : ∀ k, k ≠ bottom → k ≠ top →
        (listSwap s bottom top).getD k pivot = s.getD k pivot := by
      intro k hk1 hk2
      exact getD_congr (listSwap_get?_ne s hk1 hk2) pivot
    have hleft' : ∀ k, lo ≤ k → k < bottom + 1 →
        (listSwap s bottom top).getD k pivot < pivot := by
      intro k hk1 hk2
      rcases Nat.lt_succ_iff_lt_or_eq.mp hk2 with hk | hk
      · rw [hne k (by omega) (by omega)]
        exact hleft k hk1 hk
      · subst hk
        rw [hgdb]
        exact hc2'
    have hright' : ∀ k, top < k → k ≤ hi →
        ¬ (listSwap s bottom top).getD k pivot < pivot := by
      intro k hk1 hk2
      rw [hne k (by omega) (by omega)]
      exact hright k hk1 hk2
    have hH' : ¬ (listSwap s bottom top).getD (bottom + 1) pivot < pivot ∨
        ¬ (listSwap s bottom top).getD top pivot < pivot := by
      refine Or.inr ?_
      rw [hgdt]
      exact hc1
    obtain ⟨c1, c2, c3, c4, c5, c6⟩ :=
      ih (by omega) (by omega) h3 (by omega) hleft' hright' hH'
    refine ⟨c1.trans (listSwap_perm s bottom top), ?_, by omega, c4, c5, c6⟩
    intro k hk
    rw [c2 k hk]
    exact listSwap_get?_ne s (by omega) (by omega)
  | case4 s pivot bottom top h =>
    intro h1 h2 h3 h4 hleft hright hH
    rw [part1_eq_exit h]
    have hbt : bottom = top := by omega
    refine ⟨List.Perm.refl s, fun k _ => rfl, le_rfl, h2, hleft, ?_⟩
    intro k hk1 hk2
    rcases Nat.eq_or_lt_of_le hk1 with hk | hk
    · subst hk
      rcases hH with hx | hx
      · exact hx
      · rw [hbt]
        exact hx
    · exact hright k (by omega) hk2

theorem part2_eq_advance {s : List α} {pivot : α} {bottom top : ℕ} (h : bottom < top)
    (hc : s.getD bottom pivot = pivot) :
    part2 s pivot bottom top = part2 s pivot (bottom + 1) top := by
  rw [part2, dif_pos h, if_pos hc]

theorem part2_eq_retreat {s : List α} {pivot : α} {bottom top : ℕ} (h : bottom < top)
    (hc1 : ¬ s.getD bottom pivot = pivot) (hc2 : ¬ s.getD top pivot = pivot) :
    part2 s pivot bottom top = part2 s pivot bottom (top - 1) := by
  rw [part2, dif_pos h, if_neg hc1, if_pos hc2]

theorem part2_eq_swap {s : List α} {pivot : α} {bottom top : ℕ} (h : bottom < top)
    (hc1 : ¬ s.getD bottom pivot = pivot) (hc2 : s.getD top pivot = pivot) :
    part2 s pivot bottom top = part2 (listSwap s bottom top) pivot (bottom + 1) top := by
  rw [part2, dif_pos h, if_neg hc1, if_neg (not_not_intro hc2)]

theorem part2_eq_exit {s : List α} {pivot : α} {bottom top : ℕ} (h : ¬ bottom < top) :
    part2 s pivot bottom top = (s, bottom) := by
  rw [part2, dif_neg h]

theorem part2_mono (s : List α) (pivot : α) (bottom top : ℕ) :
    bottom ≤ (part2 s pivot bottom top).2 := by
  induction s, pivot, bottom, top using part2.induct with
  | case1 s pivot bottom top h hc ih =>
    rw [part2_eq_advance h hc]
    omega
  | case2 s pivot bottom top h hc1 hc2 ih =>
    rw [part2_eq_retreat h hc1 hc2]
    exact ih
  | case3 s pivot bottom top h hc1 hc2 ih =>
    rw [part2_eq_swap h hc1 (not_not.mp hc2)]
    omega
  | case4 s pivot bottom top h =>
    rw [part2_eq_exit h]

theorem part2_first_step {s : List α} {pivot : α} {bottom top : ℕ} (h : bottom < top)
    (hc : s.getD bottom pivot = pivot) : bottom + 1 ≤ (part2 s pivot bottom top).2 := by
  rw [part2_eq_advance h hc]
  exact part2_mono s pivot (bottom + 1) top

/-- Correctness of the second partition loop: it permutes the window only and
ends with every entry left of the meeting index equal to the pivot. -/
theorem part2_spec (lo hi : ℕ) (s : List α) (pivot : α) (bottom top : ℕ) :
    lo ≤ bottom → bottom ≤ top → top ≤ hi → hi < s.length →
    (∀ k, lo ≤ k → k < bottom → s.getD k pivot = pivot) →
    (part2 s pivot bottom top).1.Perm s ∧
      (∀ k, k < lo ∨ hi < k → (part2 s pivot bottom top).1.get? k = s.get? k) ∧
      bottom ≤ (part2 s pivot bottom top).2 ∧ (part2 s pivot bottom top).2 ≤ top ∧
      (∀ k, lo ≤ k → k < (part2 s pivot bottom top).2 →
        (part2 s pivot bottom top).1.getD k pivot = pivot) := by
  induction s, pivot, bottom, top using part2.induct with
  | case1 s pivot bottom top h hc ih =>
    intro h1 h2 h3 h4 hleft
    rw [part2_eq_advance h hc]
    have hleft' : ∀ k, lo ≤ k → k < bottom + 1 → s.getD k pivot = pivot := by
      intro k hk1 hk2
      rcases Nat.lt_succ_iff_lt_or_eq.mp hk2 with hk | hk
      · exact hleft k hk1 hk
      · subst hk; exact hc
    obtain ⟨c1, c2, c3, c4, c5⟩ := ih (by omega) (by omega) h3 h4 hleft'
    exact ⟨c1, c2, by omega, c4, c5⟩
  | case2 s pivot bottom top h hc1 hc2 ih =>
    intro h1 h2 h3 h4 hleft
    rw [part2_eq_retreat h hc1 hc2]
    obtain ⟨c1, c2, c3, c4, c5⟩ := ih h1 (by omega) (by omega) h4 hleft
    exact ⟨c1, c2, c3, by omega, c5⟩
  | case3 s pivot bottom top h hc1 hc2 ih =>
    intro h1 h2 h3 h4 hleft
    have hc2' : s.getD top pivot = pivot := not_not.mp hc2
    rw [part2_eq_swap h hc1 hc2']
    have hblen : bottom < s.length := by omega
    have htlen : top < s.length := by omega
    have hbt : bottom ≠ top := by omega
    have hgb := get?_eq_some_getD hblen pivot
    have hgt := get?_eq_some_getD htlen pivot
    have hgdb : (listSwap s bottom top).getD bottom pivot = s.getD top pivot :=
      getD_of_get? (listSwap_get?_fst hbt hgb hgt)
    have hlen' : (listSwap s bottom top).length = s.length := listSwap_length s bottom top
    have hleft' : ∀ k, lo ≤ k → k < bottom + 1 →
        (listSwap s bottom top).getD k pivot = pivot := by
      intro k hk1 hk2
      rcases Nat.lt_succ_iff_lt_or_eq.mp hk2 with hk | hk
      · rw [getD_congr (listSwap_get?_ne s (by omega) (by omega)) pivot]
        exact hleft k hk1 hk
      · subst hk
        rw [hgdb]
        exact hc2'
    obtain ⟨c1, c2, c3, c4, c5⟩ := ih (by omega) (by omega) h3 (by omega) hleft'
    refine ⟨c1.trans (listSwap_perm s bottom top), ?_, by omega, c4, c5⟩
    intro k hk
    rw [c2 k hk]
    exact listSwap_get?_ne s (by omega) (by omega)
  | case4 s pivot bottom top h =>
    intro h1 h2 h3 h4 hleft
    rw [part2_eq_exit h]
    exact ⟨List.Perm.refl s, fun k _ => rfl, le_rfl, h2, hleft⟩

theorem mem_drop_iff_get? {l : List α} {n : ℕ} {y : α} :
    y ∈ l.drop n ↔ ∃ k, n ≤ k ∧ l.get? k = some y := by
  constructor
  · intro hy
    obtain ⟨m, hm⟩ := List.mem_iff_get?.mp hy
    rw [List.get?_drop] at hm
    exact ⟨n + m, by omega, hm⟩
  · rintro ⟨k, hk1, hk2⟩
    rw [List.mem_iff_get?]
    refine ⟨k - n, ?_⟩
    rw [List.get?_drop]
    have : n + (k - n) = k := by omega
    rw [this]
    exact hk2

theorem mem_take_iff_get? {l : List α} {n : ℕ} {y : α} :
    y ∈ l.take n ↔ ∃ k, k < n ∧ l.get? k = some y := by
  constructor
  · intro hy
    obtain ⟨m, hm⟩ := List.mem_iff_get?.mp hy
    have hmn : m < n := by
      have := (List.get?_eq_some.mp hm).1
      rw [List.length_take] at this
      omega
    rw [List.get?_take hmn] at hm
    exact ⟨m, hmn, hm⟩
  · rintro ⟨k, hk1, hk2⟩
    rw [List.mem_iff_get?]
    exact ⟨k, by rw [List.get?_take hk1]; exact hk2⟩

theorem drop_perm_of_take_eq {s₁ s₂ : List α} {n : ℕ} (hperm : s₁.Perm s₂)
    (h : s₁.take n = s₂.take n) : (s₁.drop n).Perm (s₂.drop n) := by
  have h1 := List.take_append_drop n s₁
  have h2 := List.take_append_drop n s₂
  have : (s₁.take n ++ s₁.drop n).Perm (s₂.take n ++ s₂.drop n) := by
    rw [h1, h2]; exact hperm
  rw [h] at this
  exact (List.perm_append_left_iff _).mp this

theorem eq_singleton_of_length_one {l : List α} {x : α} (hlen : l.length = 1)
    (h : l.get? 0 = some x) : l = [x] := by
  cases l with
  | nil => simp at hlen
  | cons a t =>
    cases t with
    | nil =>
      simp only [List.get?] at h
      rw [Option.some_inj.mp h]
    | cons b t' => simp at hlen

/-- Decomposition of the sorted order of a list whose prefix, window and
suffix are already mutually ordered: the sort is the concatenation of the
three sorts. -/
theorem sortAsc_zones_decomp {s : List α} {low high : ℕ} (hlh : low ≤ high)
    (hhs : high ≤ s.length)
    (z1 : ∀ x ∈ s.take low, ∀ y ∈ s.drop low, x ≤ y)
    (z2 : ∀ x ∈ window s low high, ∀ y ∈ s.drop high, x ≤ y) :
    sortAsc s
      = sortAsc (s.take low) ++ (sortAsc (window s low high) ++ sortAsc (s.drop high)) := by
  have hmemw : ∀ x, x ∈ window s low high → x ∈ s.drop low := by
    intro x hx
    obtain ⟨k, hk1, hk2, hk3⟩ := (mem_window_iff hhs).mp hx
    exact mem_drop_iff_get?.mpr ⟨k, hk1, hk3⟩
  have hmemd : ∀ x, x ∈ s.drop high → x ∈ s.drop low := by
    intro x hx
    obtain ⟨k, hk1, hk2⟩ := mem_drop_iff_get?.mp hx
    exact mem_drop_iff_get?.mpr ⟨k, by omega, hk2⟩
  refine List.eq_of_perm_of_sorted ?_ (sortAsc_sorted s) ?_
  · have hsplit : s.take low ++ (window s low high ++ s.drop high) = s := by
      rw [← drop_eq_window_append hlh]
      exact List.take_append_drop low s
    have hp : (sortAsc (s.take low)
        ++ (sortAsc (window s low high) ++ sortAsc (s.drop high))).Perm s := by
      refine List.Perm.trans
        (List.Perm.append (sortAsc_perm _)
          (List.Perm.append (sortAsc_perm _) (sortAsc_perm _))) ?_
      rw [hsplit]
    exact (sortAsc_perm s).trans hp.symm
  · rw [List.Sorted, List.pairwise_append]
    refine ⟨sortAsc_sorted _, ?_, ?_⟩
    · rw [List.pairwise_append]
      refine ⟨sortAsc_sorted _, sortAsc_sorted _, ?_⟩
      intro a ha b hb
      have ha' : a ∈ window s low high := (sortAsc_perm _).mem_iff.mp ha
      have hb' : b ∈ s.drop high := (sortAsc_perm _).mem_iff.mp hb
      exact z2 a ha' b hb'
    · intro a ha b hb
      have ha' : a ∈ s.take low := (sortAsc_perm _).mem_iff.mp ha
      rcases List.mem_append.mp hb with hb' | hb'
      · exact z1 a ha' b (hmemw b ((sortAsc_perm _).mem_iff.mp hb'))
      · exact z1 a ha' b (hmemd b ((sortAsc_perm _).mem_iff.mp hb'))

/-- Index form of the decomposition: a sorted-order entry inside the window
zone is an entry of the sorted window. -/
theorem get?_decomp_middle {s : List α} {low high k : ℕ} (hlh : low ≤ high)
    (hhs : high ≤ s.length)
    (z1 : ∀ x ∈ s.take low, ∀ y ∈ s.drop low, x ≤ y)
    (z2 : ∀ x ∈ window s low high, ∀ y ∈ s.drop high, x ≤ y)
    (hk1 : low ≤ k) (hk2 : k < high) :
    (sortAsc s).get? k = (sortAsc (window s low high)).get? (k - low) := by
  rw [sortAsc_zones_decomp hlh hhs z1 z2]
  have hlen1 : (sortAsc (s.take low)).length = low := by
    rw [sortAsc_length, List.length_take]
    omega
  have hlen2 : (sortAsc (window s low high)).length = high - low := by
    rw [sortAsc_length]
    exact window_length hlh hhs
  rw [List.get?_append_right (by omega), hlen1]
  rw [List.get?_append (by omega)]

theorem sortAsc_get?_eq_pivot {W : List α} {pivot : α} {k : ℕ}
    (hk1 : cntLT W pivot ≤ k) (hk2 : k < cntLE W pivot) :
    (sortAsc W).get? k = some pivot := by
  have hS := sortAsc_sorted W
  have hlenS : k < (sortAsc W).length := by
    have := cntLE_le_length W pivot
    rw [sortAsc_length]
    omega
  have hle : (sortAsc W).getD k pivot ≤ pivot :=
    (sorted_getD_le_iff hS hlenS pivot pivot).mpr (by rw [cntLE_sortAsc]; omega)
  have hnlt : ¬ (sortAsc W).getD k pivot < pivot := by
    intro hc
    have := (sorted_getD_lt_iff hS hlenS pivot pivot).mp hc
    rw [cntLT_sortAsc] at this
    omega
  have heq : (sortAsc W).getD k pivot = pivot := le_antisymm hle (not_lt.mp hnlt)
  have hout := get?_eq_some_getD hlenS pivot
  rw [heq] at hout
  exact hout

theorem cnt_window_three (s : List α) (low a b high : ℕ) (pivot : α)
    (h1 : low ≤ a) (h2 : a ≤ b) (h3 : b ≤ high) (h4 : high ≤ s.length)
    (hA : ∀ k, low ≤ k → k < a → s.getD k pivot < pivot)
    (hB : ∀ k, a ≤ k → k < b → s.getD k pivot = pivot)
    (hC : ∀ x ∈ window s a high, pivot ≤ x) :
    cntLT (window s low high) pivot = a - low ∧
      b - low ≤ cntLE (window s low high) pivot := by
  have hah : a ≤ high := le_trans h2 h3
  have has : a ≤ s.length := le_trans hah h4
  have hbs : b ≤ s.length := le_trans h3 h4
  have hsplit1 : window s low high = window s low a ++ window s a high :=
    window_split s h1 hah
  have hsplit2 : window s a high = window s a b ++ window s b high :=
    window_split s h2 h3
  have hAval : ∀ x ∈ window s low a, x < pivot := by
    intro x hx
    obtain ⟨k, hk1, hk2, hk3⟩ := (mem_window_iff has).mp hx
    have := hA k hk1 hk2
    rw [getD_of_get? hk3] at this
    exact this
  have hBval : ∀ x ∈ window s a b, x = pivot := by
    intro x hx
    obtain ⟨k, hk1, hk2, hk3⟩ := (mem_window_iff hbs).mp hx
    have := hB k hk1 hk2
    rw [getD_of_get? hk3] at this
    exact this
  have hlenA : (window s low a).length = a - low := window_length h1 has
  have hlenB : (window s a b).length = b - a := window_length h2 hbs
  constructor
  · rw [hsplit1]
    unfold cntLT
    rw [List.countP_append]
    have e1 : (window s low a).countP (fun x => x < pivot) = (window s low a).length :=
      List.countP_eq_length.mpr (fun x hx => by
        simp only [decide_eq_true_eq]
        exact hAval x hx)
    have e2 : (window s a high).countP (fun x => x < pivot) = 0 :=
      List.countP_eq_zero.mpr (fun x hx => by
        simp only [decide_eq_true_eq]
        exact not_lt_of_le (hC x hx))
    rw [e1, e2, hlenA]
    omega
  · rw [hsplit1, hsplit2]
    unfold cntLE
    rw [List.countP_append, List.countP_append]
    have e1 : (window s low a).countP (fun x => x ≤ pivot) = (window s low a).length :=
      List.countP_eq_length.mpr (fun x hx => by
        simp only [decide_eq_true_eq]
        exact le_of_lt (hAval x hx))
    have e2 : (window s a b).countP (fun x => x ≤ pivot) = (window s a b).length :=
      List.countP_eq_length.mpr (fun x hx => by
        simp only [decide_eq_true_eq]
        exact le_of_eq (hBval x hx))
    rw [e1, e2, hlenA, hlenB]
    omega

/-- Main correctness of the quickselect loop: starting from a window [low,
high) whose outside zones are already in sorted position relative to the
window, with enough fuel, the loop returns the entry of the fully sorted list
at the 1-indexed rank r. -/
theorem selectLoop_spec (fuel : ℕ) :
    ∀ (s : List α) (r low high : ℕ),
      high ≤ s.length → low < r → r ≤ high → high - low < fuel →
      (∀ x ∈ s.take low, ∀ y ∈ s.drop low, x ≤ y) →
      (∀ x ∈ window s low high, ∀ y ∈ s.drop high, x ≤ y) →
      selectLoop fuel s r low high = (sortAsc s).get? (r - 1) := by
  induction fuel with
  | zero =>
    intro s r low high hhs hlr hrh hfuel z1 z2
    omega
  | succ fuel ih =>
    intro s r low high hhs hlr hrh hfuel z1 z2
    have hlh : low < high := by omega
    have hlowlen : low < s.length := by omega
    obtain ⟨pivot, hpivot⟩ : ∃ p, s.get? low = some p :=
      ⟨_, List.get?_eq_get hlowlen⟩
    have hgdlow : s.getD low pivot = pivot := getD_of_get? hpivot
    rw [selectLoop, if_pos hlh, hpivot]
    by_cases hsing : low ≥ high - 1
    · simp only [if_pos hsing]
      have hwin1 : window s low high = [pivot] := by
        have hlen : (window s low high).length = 1 := by
          rw [window_length (by omega) hhs]
          omega
        have hget : (window s low high).get? 0 = some pivot := by
          rw [window_get? s low high 0 (by omega)]
          simpa using hpivot
        exact eq_singleton_of_length_one hlen hget
      have hdecomp := get?_decomp_middle (le_of_lt hlh) hhs z1 z2
        (show low ≤ r - 1 by omega) (show r - 1 < high by omega)
      rw [hdecomp, hwin1, List.perm_singleton.mp (sortAsc_perm [pivot])]
      have hzero : r - 1 - low = 0 := by omega
      rw [hzero]
      rfl
    · simp only [if_neg hsing]
      obtain ⟨c1, c2, c3, c4, c5, c6⟩ :=
        part1_spec low (high - 1) s pivot low (high - 1) le_rfl (by omega) le_rfl
          (by omega)
          (fun k hk1 hk2 => absurd hk2 (by omega))
          (fun k hk1 hk2 => absurd hk1 (by omega))
          (Or.inl (by rw [hgdlow]; exact lt_irrefl pivot))
      have hlen1 : (part1 s pivot low (high - 1)).1.length = s.length := c1.length_eq
      have htake1 : (part1 s pivot low (high - 1)).1.take low = s.take low :=
        take_congr low (fun k hk => c2 k (Or.inl hk)) hlen1
      have hdropP : ((part1 s pivot low (high - 1)).1.drop low).Perm (s.drop low) :=
        drop_perm_of_take_eq c1 htake1
      have hwperm : (window (part1 s pivot low (high - 1)).1 low high).Perm
          (window s low high) := by
        refine window_perm_of c1 ?_ (le_of_lt hlh) hhs
        intro k hk
        rcases hk with hk | hk
        · exact c2 k (Or.inl hk)
        · exact c2 k (Or.inr (by omega))
      by_cases hbr : r ≤ (part1 s pivot low (high - 1)).2
      · rw [if_pos hbr]
        have z1p : ∀ x ∈ (part1 s pivot low (high - 1)).1.take low,
            ∀ y ∈ (part1 s pivot low (high - 1)).1.drop low, x ≤ y := by
          intro x hx y hy
          rw [htake1] at hx
          exact z1 x hx y (hdropP.mem_iff.mp hy)
        have z2p : ∀ x ∈ window (part1 s pivot low (high - 1)).1 low
              (part1 s pivot low (high - 1)).2,
            ∀ y ∈ (part1 s pivot low (high - 1)).1.drop (part1 s pivot low (high - 1)).2,
              x ≤ y := by
          intro x hx y hy
          have hps : (part1 s pivot low (high - 1)).2
              ≤ (part1 s pivot low (high - 1)).1.length := by omega
          obtain ⟨kx, hkx1, hkx2, hkx3⟩ := (mem_window_iff hps).mp hx
          have hxlt : x < pivot := by
            have := c5 kx hkx1 hkx2
            rw [getD_of_get? hkx3] at this
            exact this
          obtain ⟨ky, hky1, hky2⟩ := mem_drop_iff_get?.mp hy
          by_cases hky3 : ky ≤ high - 1
          · have := c6 ky hky1 hky3
            rw [getD_of_get? hky2] at this
            exact le_of_lt (lt_of_lt_of_le hxlt (not_lt.mp this))
          · have hyS : s.get? ky = some y := by
              rw [← c2 ky (Or.inr (by omega))]
              exact hky2
            have hyD : y ∈ s.drop high := mem_drop_iff_get?.mpr ⟨ky, by omega, hyS⟩
            have hxW : x ∈ window s low high := by
              refine hwperm.mem_iff.mp ?_
              exact (mem_window_iff (by omega)).mpr ⟨kx, hkx1, by omega, hkx3⟩
            exact z2 x hxW y hyD
        have hrec := ih (part1 s pivot low (high - 1)).1 r low
          (part1 s pivot low (high - 1)).2 (by omega) hlr hbr (by omega) z1p z2p
        rw [hrec, sortAsc_eq_of_perm c1]
      · rw [if_neg hbr]
        obtain ⟨d1, d2, d3, d4, d5⟩ :=
          part2_spec (part1 s pivot low (high - 1)).2 (high - 1)
            (part1 s pivot low (high - 1)).1 pivot (part1 s pivot low (high - 1)).2
            (high - 1) le_rfl c4 le_rfl (by omega)
            (fun k hk1 hk2 => absurd hk2 (by omega))
        have hlen2 : (part2 (part1 s pivot low (high - 1)).1 pivot
            (part1 s pivot low (high - 1)).2 (high - 1)).1.length = s.length := by
          rw [d1.length_eq, hlen1]
        have hq_perm_s : (part2 (part1 s pivot low (high - 1)).1 pivot
            (part1 s pivot low (high - 1)).2 (high - 1)).1.Perm s := d1.trans c1
        have houts_q : ∀ k, k < low ∨ high ≤ k →
            (part2 (part1 s pivot low (high - 1)).1 pivot
              (part1 s pivot low (high - 1)).2 (high - 1)).1.get? k = s.get? k := by
          intro k hk
          rcases hk with hk | hk
          · rw [d2 k (Or.inl (by omega)), c2 k (Or.inl hk)]
          · rw [d2 k (Or.inr (by omega)), c2 k (Or.inr (by omega))]
        have hq_lt : ∀ k, low ≤ k → k < (part1 s pivot low (high - 1)).2 →
            (part2 (part1 s pivot low (high - 1)).1 pivot
              (part1 s pivot low (high - 1)).2 (high - 1)).1.getD k pivot < pivot := by
          intro k hk1 hk2
          rw [getD_congr (d2 k (Or.inl hk2)) pivot]
          exact c5 k hk1 hk2
        have hwq_perm : (window (part2 (part1 s pivot low (high - 1)).1 pivot
              (part1 s pivot low (high - 1)).2 (high - 1)).1
              (part1 s pivot low (high - 1)).2 high).Perm
            (window (part1 s pivot low (high - 1)).1
              (part1 s pivot low (high - 1)).2 high) := by
          refine window_perm_of d1 ?_ (by omega) (by omega)
          intro k hk
          rcases hk with hk | hk
          · exact d2 k (Or.inl hk)
          · exact d2 k (Or.inr (by omega))
        have hq_ge : ∀ x ∈ window (part2 (part1 s pivot low (high - 1)).1 pivot
              (part1 s pivot low (high - 1)).2 (high - 1)).1
              (part1 s pivot low (high - 1)).2 high, pivot ≤ x := by
          intro x hx
          have hx' := hwq_perm.mem_iff.mp hx
          obtain ⟨k, hk1, hk2, hk3⟩ := (mem_window_iff (by omega)).mp hx'
          have := c6 k hk1 (by omega)
          rw [getD_of_get? hk3] at this
          exact not_lt.mp this
        have htakeq : (part2 (part1 s pivot low (high - 1)).1 pivot
            (part1 s pivot low (high - 1)).2 (high - 1)).1.take low = s.take low :=
          take_congr low (fun k hk => houts_q k (Or.inl hk)) hlen2
        have hdropq_perm : ((part2 (part1 s pivot low (high - 1)).1 pivot
            (part1 s pivot low (high - 1)).2 (high - 1)).1.drop low).Perm
            (s.drop low) := drop_perm_of_take_eq hq_perm_s htakeq
        have hdropq_high : (part2 (part1 s pivot low (high - 1)).1 pivot
            (part1 s pivot low (high - 1)).2 (high - 1)).1.drop high = s.drop high :=
          drop_congr high hlen2 (fun k hk => houts_q k (Or.inr hk))
        have hwq_full : (window (part2 (part1 s pivot low (high - 1)).1 pivot
              (part1 s pivot low (high - 1)).2 (high - 1)).1 low high).Perm
            (window s low high) :=
          window_perm_of hq_perm_s houts_q (le_of_lt hlh) hhs
        by_cases hbr2 : r ≤ (part2 (part1 s pivot low (high - 1)).1 pivot
            (part1 s pivot low (high - 1)).2 (high - 1)).2
        · rw [if_pos hbr2]
          have z1q : ∀ x ∈ (part2 (part1 s pivot low (high - 1)).1 pivot
                (part1 s pivot low (high - 1)).2 (high - 1)).1.take low,
              ∀ y ∈ (part2 (part1 s pivot low (high - 1)).1 pivot
                (part1 s pivot low (high - 1)).2 (high - 1)).1.drop low, x ≤ y := by
            intro x hx y hy
            rw [htakeq] at hx
            exact z1 x hx y (hdropq_perm.mem_iff.mp hy)
          have z2q : ∀ x ∈ window (part2 (part1 s pivot low (high - 1)).1 pivot
                (part1 s pivot low (high - 1)).2 (high - 1)).1 low high,
              ∀ y ∈ (part2 (part1 s pivot low (high - 1)).1 pivot
                (part1 s pivot low (high - 1)).2 (high - 1)).1.drop high, x ≤ y := by
            intro x hx y hy
            rw [hdropq_high] at hy
            exact z2 x (hwq_full.mem_iff.mp hx) y hy
          rw [← sortAsc_eq_of_perm hq_perm_s]
          have hdecomp := get?_decomp_middle (le_of_lt hlh) (by omega) z1q z2q
            (show low ≤ r - 1 by omega) (show r - 1 < high by omega)
          rw [hdecomp]
          obtain ⟨hcntlt, hcntle⟩ := cnt_window_three
            (part2 (part1 s pivot low (high - 1)).1 pivot
              (part1 s pivot low (high - 1)).2 (high - 1)).1
            low (part1 s pivot low (high - 1)).2
            (part2 (part1 s pivot low (high - 1)).1 pivot
              (part1 s pivot low (high - 1)).2 (high - 1)).2
            high pivot c3 d3 (by omega) (by omega) hq_lt d5 hq_ge
          symm
          apply sortAsc_get?_eq_pivot
          · rw [hcntlt]
            omega
          · omega
        · rw [if_neg hbr2]
          have hlow_lt_q2 : low < (part2 (part1 s pivot low (high - 1)).1 pivot
              (part1 s pivot low (high - 1)).2 (high - 1)).2 := by
            rcases Nat.lt_or_ge low (part1 s pivot low (high - 1)).2 with hc | hc
            · omega
            · have hpr2 : (part1 s pivot low (high - 1)).2 = low := by omega
              have hstay : (part1 s pivot low (high - 1)).1 = s :=
                part1_stay s pivot low (high - 1)
                  (by rw [hgdlow]; exact lt_irrefl pivot) hpr2
              rw [hstay, hpr2]
              exact part2_first_step (by omega) hgdlow
          have z1q' : ∀ x ∈ (part2 (part1 s pivot low (high - 1)).1 pivot
                (part1 s pivot low (high - 1)).2 (high - 1)).1.take
                (part2 (part1 s pivot low (high - 1)).1 pivot
                  (part1 s pivot low (high - 1)).2 (high - 1)).2,
              ∀ y ∈ (part2 (part1 s pivot low (high - 1)).1 pivot
                (part1 s pivot low (high - 1)).2 (high - 1)).1.drop
                (part2 (part1 s pivot low (high - 1)).1 pivot
                  (part1 s pivot low (high - 1)).2 (high - 1)).2, x ≤ y := by
            intro x hx y hy
            obtain ⟨kx, hkx1, hkx2⟩ := mem_take_iff_get?.mp hx
            obtain ⟨ky, hky1, hky2⟩ := mem_drop_iff_get?.mp hy
            by_cases hkxlow : kx < low
            · have hx' : x ∈ s.take low := mem_take_iff_get?.mpr
                ⟨kx, hkxlow, by rw [← houts_q kx (Or.inl hkxlow)]; exact hkx2⟩
              have hy' : y ∈ s.drop low := hdropq_perm.mem_iff.mp
                (mem_drop_iff_get?.mpr ⟨ky, by omega, hky2⟩)
              exact z1 x hx' y hy'
            · have hxle : x ≤ pivot := by
                by_cases hkx3 : kx < (part1 s pivot low (high - 1)).2
                · have := hq_lt kx (by omega) hkx3
                  rw [getD_of_get? hkx2] at this
                  exact le_of_lt this
                · have := d5 kx (by omega) hkx1
                  rw [getD_of_get? hkx2] at this
                  exact le_of_eq this
              by_cases hkyh : ky < high
              · have hy' : y ∈ window (part2 (part1 s pivot low (high - 1)).1 pivot
                    (part1 s pivot low (high - 1)).2 (high - 1)).1
                    (part1 s pivot low (high - 1)).2 high :=
                  (mem_window_iff (by omega)).mpr ⟨ky, by omega, hkyh, hky2⟩
                exact le_trans hxle (hq_ge y hy')
              · have hyS : s.get? ky = some y := by
                  rw [← houts_q ky (Or.inr (by omega))]
                  exact hky2
                have hy' : y ∈ s.drop high := mem_drop_iff_get?.mpr ⟨ky, by omega, hyS⟩
                have hx' : x ∈ window s low high := hwq_full.mem_iff.mp
                  ((mem_window_iff (by omega)).mpr ⟨kx, by omega, by omega, hkx2⟩)
                exact z2 x hx' y hy'
          have z2q' : ∀ x ∈ window (part2 (part1 s pivot low (high - 1)).1 pivot
                (part1 s pivot low (high - 1)).2 (high - 1)).1
                (part2 (part1 s pivot low (high - 1)).1 pivot
                  (part1 s pivot low (high - 1)).2 (high - 1)).2 high,
              ∀ y ∈ (part2 (part1 s pivot low (high - 1)).1 pivot
                (part1 s pivot low (high - 1)).2 (high - 1)).1.drop high, x ≤ y := by
            intro x hx y hy
            rw [hdropq_high] at hy
            obtain ⟨kx, hkx1, hkx2, hkx3⟩ := (mem_window_iff (by omega)).mp hx
            have hx' : x ∈ window s low high := hwq_full.mem_iff.mp
              ((mem_window_iff (by omega)).mpr ⟨kx, by omega, hkx2, hkx3⟩)
            exact z2 x hx' y hy
          have hrec := ih (part2 (part1 s pivot low (high - 1)).1 pivot
              (part1 s pivot low (high - 1)).2 (high - 1)).1 r
            (part2 (part1 s pivot low (high - 1)).1 pivot
              (part1 s pivot low (high - 1)).2 (high - 1)).2 high
            (by omega) (by omega) hrh (by omega) z1q' z2q'
          rw [hrec, sortAsc_eq_of_perm hq_perm_s]

/-- The free quickselect rank agrees with indexing into the sorted copy. -/
theorem rank_eq_sorted_get? (l : List α) (r : ℕ) (hl : 0 < l.length)
    (hr1 : 1 ≤ r) (hr2 : r ≤ l.length) :
    rank l r = (sortAsc l).get? (r - 1) := by
  unfold rank
  rw [if_pos hl, if_pos ⟨hr1, hr2⟩]
  refine selectLoop_spec (l.length + 1) l r 0 l.length le_rfl (by omega) hr2 (by omega)
    ?_ ?_
  · intro x hx
    simp at hx
  · intro x hx y hy
    rw [List.drop_length] at hy
    simp at hy

/-- C2: for every non-empty sample, the one-shot front end and the cached
Ecdf agree: value matches the linear-scan ecdf for every query, rank matches
the two-phase quickselect for every valid rank, and likewise percentile and
permille. -/
theorem claim_C2_front_ends_agree (l : List α) (hl : l ≠ []) :
    ∀ e ∈ Ecdf.new l,
      (∀ t : α, some (e.value t) = ecdf l t) ∧
      (∀ r : ℕ, 1 ≤ r → r ≤ l.length → e.rank r = rank l r) ∧
      (∀ p : ℕ, 1 ≤ p → p ≤ 100 → e.percentile p = percentile l p) ∧
      (∀ p : ℕ, 1 ≤ p → p ≤ 1000 → e.permille p = permille l p) := by
  have hl' : 0 < l.length := List.length_pos.mpr hl
  rw [Ecdf.new_some hl']
  intro e he
  simp only [Option.mem_def, Option.some_inj] at he
  subst he
  have hslen : (sortAsc l).length = l.length := sortAsc_length l
  refine ⟨?_, ?_, ?_, ?_⟩
  · intro t
    rw [Ecdf.value_mk]
    unfold ecdf
    rw [if_pos hl']
  · intro r hr1 hr2
    have hcached : Ecdf.rank { samples := sortAsc l, length := l.length } r
        = (sortAsc l).get? (r - 1) := by
      simp only [Ecdf.rank, hslen]
      rw [if_pos ⟨hr1, hr2⟩]
    rw [hcached, rank_eq_sorted_get? l r hl' hr1 hr2]
  · intro p hp1 hp2
    obtain ⟨hb1, hb2⟩ :=
      ceil_rank_bounds (100 : ℚ) hp1 (by norm_num) (by exact_mod_cast hp2) hl'
    have hcached : Ecdf.percentile { samples := sortAsc l, length := l.length } p
        = (sortAsc l).get? ((⌈(p : ℚ) * (l.length : ℚ) / 100⌉).toNat - 1) := by
      simp only [Ecdf.percentile]
      rw [if_pos ⟨hp1, hp2⟩]
    rw [hcached]
    unfold percentile
    rw [if_pos ⟨hp1, hp2⟩, if_pos hl',
      rank_eq_sorted_get? l ((⌈(p : ℚ) * (l.length : ℚ) / 100⌉).toNat) hl' hb1 hb2]
  · intro p hp1 hp2
    obtain ⟨hb1, hb2⟩ :=
      ceil_rank_bounds (1000 : ℚ) hp1 (by norm_num) (by exact_mod_cast hp2) hl'
    have hcached : Ecdf.permille { samples := sortAsc l, length := l.length } p
        = (sortAsc l).get? ((⌈(p : ℚ) * (l.length : ℚ) / 1000⌉).toNat - 1) := by
      simp only [Ecdf.permille]
      rw [if_pos ⟨hp1, hp2⟩]
    rw [hcached]
    unfold permille
    rw [if_pos ⟨hp1, hp2⟩, if_pos hl',
      rank_eq_sorted_get? l ((⌈(p : ℚ) * (l.length : ℚ) / 1000⌉).toNat) hl' hb1 hb2]

theorem claim_C2_front_ends_agree_witness :
    (([3, 1, 4, 1, 5] : List ℤ) ≠ []) ∧
      ∀ e ∈ Ecdf.new ([3, 1, 4, 1, 5] : List ℤ),
        (∀ t : ℤ, some (e.value t) = ecdf ([3, 1, 4, 1, 5] : List ℤ) t) ∧
        (∀ r : ℕ, 1 ≤ r → r ≤ (5 : ℕ) → e.rank r = rank ([3, 1, 4, 1, 5] : List ℤ) r) ∧
        (∀ p : ℕ, 1 ≤ p → p ≤ 100 →
          e.percentile p = percentile ([3, 1, 4, 1, 5] : List ℤ) p) ∧
        (∀ p : ℕ, 1 ≤ p → p ≤ 1000 →
          e.permille p = permille ([3, 1, 4, 1, 5] : List ℤ) p) :=
  ⟨by decide, claim_C2_front_ends_agree [3, 1, 4, 1, 5] (by decide)⟩

theorem foldl_max_shift (l : List ℚ) : ∀ a b : ℚ,
    List.foldl max (max a b) l = max a (List.foldl max b l) := by
  induction l with
  | nil => intro a b; rfl
  | cons c t ih =>
    intro a b
    show List.foldl max (max (max a b) c) t = max a (List.foldl max (max b c) t)
    rw [max_assoc, ih a (max b c)]

theorem maxOverQ_cons (x : ℚ) (l : List ℚ) : maxOverQ (x :: l) = max x (maxOverQ l) := by
  unfold maxOverQ
  show List.foldl max (max 0 x) l = max x (List.foldl max 0 l)
  rw [max_comm 0 x, foldl_max_shift]

theorem maxOverQ_nonneg (l : List ℚ) : 0 ≤ maxOverQ l := by
  induction l with
  | nil => exact le_refl 0
  | cons x t ih =>
    rw [maxOverQ_cons]
    exact le_trans ih (le_max_right x (maxOverQ t))

theorem maxOverQ_ge {l : List ℚ} {x : ℚ} (h : x ∈ l) : x ≤ maxOverQ l := by
  induction l with
  | nil => simp at h
  | cons a t ih =>
    rw [maxOverQ_cons]
    rcases List.mem_cons.mp h with h | h
    · subst h; exact le_max_left x (maxOverQ t)
    · exact le_trans (ih h) (le_max_right a (maxOverQ t))

theorem maxOverQ_le {l : List ℚ} {b : ℚ} (hb : 0 ≤ b) (h : ∀ x ∈ l, x ≤ b) :
    maxOverQ l ≤ b := by
  induction l with
  | nil => exact hb
  | cons a t ih =>
    rw [maxOverQ_cons]
    exact max_le (h a (List.mem_cons_self a t)) (ih (fun x hx => h x (List.mem_cons_of_mem a hx)))

theorem maxOverQ_eq_of_le_ge {l₁ l₂ : List ℚ} (h1 : ∀ x ∈ l₁, x ≤ maxOverQ l₂)
    (h2 : ∀ x ∈ l₂, x ≤ maxOverQ l₁) : maxOverQ l₁ = maxOverQ l₂ :=
  le_antisymm (maxOverQ_le (maxOverQ_nonneg l₂) h1) (maxOverQ_le (maxOverQ_nonneg l₁) h2)

/-- The statistic-update step in the source, if diff > statistic then diff
else statistic, folded over a list, is the fold of max over the mapped list. -/
theorem foldl_statmax_eq {β : Type} (g : β → ℚ) (l : List β) : ∀ a : ℚ,
    l.foldl (fun statistic x => if g x > statistic then g x else statistic) a
      = List.foldl max a (l.map g) := by
  induction l with
  | nil => intro a; rfl
  | cons c t ih =>
    intro a
    show t.foldl (fun statistic x => if g x > statistic then g x else statistic)
        (if g c > a then g c else a) = List.foldl max (max a (g c)) (t.map g)
    rw [ih]
    congr 1
    rcases le_or_lt (g c) a with h | h
    · rw [if_neg (not_lt.mpr h), max_eq_left h]
    · rw [if_pos h, max_eq_right (le_of_lt h)]

theorem maxOverQ_perm {l₁ l₂ : List ℚ} (h : l₁.Perm l₂) : maxOverQ l₁ = maxOverQ l₂ := by
  induction h with
  | nil => rfl
  | cons x h ih => rw [maxOverQ_cons, maxOverQ_cons, ih]
  | swap x y t =>
    rw [maxOverQ_cons, maxOverQ_cons, maxOverQ_cons, maxOverQ_cons, ← max_assoc,
      max_comm y x, max_assoc]
  | trans h1 h2 ih1 ih2 => rw [ih1, ih2]

theorem valueWalk_run (l : List α) (t : α) (i : ℕ) (h : l.get? i = some t) :
    ∀ k, i ≤ k → k ≤ valueWalk l t i → l.get? k = some t := by
  induction i using valueWalk.induct l t with
  | case1 i hc ih =>
    rw [valueWalk, dif_pos hc]
    intro k hk1 hk2
    rcases Nat.eq_or_lt_of_le hk1 with hk | hk
    · subst hk; exact h
    · exact ih hc.2 k (by omega) hk2
  | case2 i hc =>
    rw [valueWalk, dif_neg hc]
    intro k hk1 hk2
    have : k = i := by omega
    subst this
    exact h

/-- Step lemma for the running maximum over processed values: extending the
processed region from values at most v to values at most vNew adds only
values whose difference equals the one at vNew. -/
theorem maxOverQ_filter_step {β : Type} [LinearOrder β] [DecidableEq β]
    (merged : List β) (g : β → ℚ) (v vNew : β) (hvv : v ≤ vNew) (hmem : vNew ∈ merged)
    (hstep : ∀ t ∈ merged, ¬ t ≤ v → t ≤ vNew → g t = g vNew) :
    maxOverQ ((merged.filter (fun t => t ≤ vNew)).map g)
      = max (maxOverQ ((merged.filter (fun t => t ≤ v)).map g)) (g vNew) := by
  apply le_antisymm
  · refine maxOverQ_le (le_trans (maxOverQ_nonneg _) (le_max_left _ _)) ?_
    intro x hx
    obtain ⟨t, ht, rfl⟩ := List.mem_map.mp hx
    obtain ⟨htm, htle⟩ := List.mem_filter.mp ht
    simp only [decide_eq_true_eq] at htle
    by_cases htv : t ≤ v
    · refine le_trans (maxOverQ_ge ?_) (le_max_left _ _)
      exact List.mem_map_of_mem g (List.mem_filter.mpr ⟨htm, by simp [htv]⟩)
    · rw [hstep t htm htv htle]
      exact le_max_right _ _
  · apply max_le
    · refine maxOverQ_le (maxOverQ_nonneg _) ?_
      intro x hx
      obtain ⟨t, ht, rfl⟩ := List.mem_map.mp hx
      obtain ⟨htm, htle⟩ := List.mem_filter.mp ht
      simp only [decide_eq_true_eq] at htle
      refine maxOverQ_ge ?_
      exact List.mem_map_of_mem g (List.mem_filter.mpr ⟨htm, by simp [le_trans htle hvv]⟩)
    · refine maxOverQ_ge ?_
      exact List.mem_map_of_mem g (List.mem_filter.mpr ⟨hmem, by simp⟩)

/-- Base lemma: on the first processed value, all processed differences equal
the one at the current value. -/
theorem maxOverQ_filter_base {β : Type} [LinearOrder β] [DecidableEq β]
    (merged : List β) (g : β → ℚ) (vNew : β) (hmem : vNew ∈ merged) (hg : 0 ≤ g vNew)
    (hconst : ∀ t ∈ merged, t ≤ vNew → g t = g vNew) :
    maxOverQ ((merged.filter (fun t => t ≤ vNew)).map g) = g vNew := by
  apply le_antisymm
  · refine maxOverQ_le hg ?_
    intro x hx
    obtain ⟨t, ht, rfl⟩ := List.mem_map.mp hx
    obtain ⟨htm, htle⟩ := List.mem_filter.mp ht
    simp only [decide_eq_true_eq] at htle
    rw [hconst t htm htle]
  · refine maxOverQ_ge ?_
    exact List.mem_map_of_mem g (List.mem_filter.mpr ⟨hmem, by simp⟩)

/-- Exit lemma: if every unprocessed value has a difference bounded by the
running maximum, the running maximum is the maximum over all values. -/
theorem maxOverQ_filter_final {β : Type} [LinearOrder β] [DecidableEq β]
    (merged : List β) (g : β → ℚ) (v : β)
    (hbound : ∀ t ∈ merged, ¬ t ≤ v →
      g t ≤ maxOverQ ((merged.filter (fun t => t ≤ v)).map g)) :
    maxOverQ (merged.map g) = maxOverQ ((merged.filter (fun t => t ≤ v)).map g) := by
  apply le_antisymm
  · refine maxOverQ_le (maxOverQ_nonneg _) ?_
    intro x hx
    obtain ⟨t, ht, rfl⟩ := List.mem_map.mp hx
    by_cases htv : t ≤ v
    · exact maxOverQ_ge (List.mem_map_of_mem g (List.mem_filter.mpr ⟨ht, by simp [htv]⟩))
    · exact hbound t ht htv
  · refine maxOverQ_le (maxOverQ_nonneg _) ?_
    intro x hx
    obtain ⟨t, ht, rfl⟩ := List.mem_map.mp hx
    exact maxOverQ_ge (List.mem_map_of_mem g (List.mem_filter.mp ht).1)

theorem ite_gt_max (d s : ℚ) : (if d > s then d else s) = max s d := by
  rcases le_or_lt d s with h | h
  · rw [if_neg (not_lt.mpr h), max_eq_left h]
  · rw [if_pos h, max_eq_right (le_of_lt h)]

theorem lt_of_cnt_le {xs : List α} (hs : List.Sorted (· ≤ ·) xs) {i : ℕ} {v x_i : α}
    (hxi : xs.get? i = some x_i) (hcx : cntLE xs v ≤ i) : v < x_i := by
  have hi : i < xs.length := (List.get?_eq_some.mp hxi).1
  by_contra hcon
  push_neg at hcon
  have hle : xs.getD i x_i ≤ v := by
    rw [getD_of_get? hxi]
    exact hcon
  have := (sorted_getD_le_iff hs hi v x_i).mp hle
  omega

theorem cnt_stable_of_run {xs : List α} (hs : List.Sorted (· ≤ ·) xs) {i : ℕ}
    {x_i v w : α} (hxi : xs.get? i = some x_i) (hcx : cntLE xs v ≤ i)
    (hrun : ∀ k, cntLE xs v ≤ k → k ≤ i → xs.get? k = xs.get? i)
    (hvw : v ≤ w) (hw : w < x_i) : cntLE xs w = cntLE xs v := by
  apply le_antisymm
  · by_contra hcon
    push_neg at hcon
    have hklen : cntLE xs v < xs.length := lt_of_lt_of_le hcon (cntLE_le_length xs w)
    have hle : xs.getD (cntLE xs v) x_i ≤ w :=
      (sorted_getD_le_iff hs hklen w x_i).mpr hcon
    have hrq : xs.get? (cntLE xs v) = some x_i := by
      rw [hrun (cntLE xs v) le_rfl hcx, hxi]
    have heq : xs.getD (cntLE xs v) x_i = x_i := getD_of_get? hrq
    rw [heq] at hle
    exact absurd hle (not_le_of_lt hw)
  · exact cntLE_mono xs hvw

theorem ge_of_unprocessed {xs : List α} (hs : List.Sorted (· ≤ ·) xs) {i : ℕ}
    {x_i v t : α} (hxi : xs.get? i = some x_i) (hcx : cntLE xs v ≤ i)
    (hrun : ∀ k, cntLE xs v ≤ k → k ≤ i → xs.get? k = xs.get? i)
    (ht : t ∈ xs) (htv : ¬ t ≤ v) : x_i ≤ t := by
  have hi : i < xs.length := (List.get?_eq_some.mp hxi).1
  obtain ⟨k, hk⟩ := List.mem_iff_get?.mp ht
  have hklen : k < xs.length := (List.get?_eq_some.mp hk).1
  have hkge : cntLE xs v ≤ k := by
    by_contra hcon
    push_neg at hcon
    have := (sorted_getD_le_iff hs hklen v x_i).mpr hcon
    rw [getD_of_get? hk] at this
    exact htv this
  by_cases hki : k ≤ i
  · have := hrun k hkge hki
    rw [hk, hxi] at this
    exact le_of_eq (Option.some_inj.mp this).symm
  · have := sorted_getD_mono hs (le_of_lt (not_le.mp hki)) hklen x_i
    rw [getD_of_get? hxi, getD_of_get? hk] at this
    exact this

theorem cnt_full_of_run {xs : List α} {i : ℕ} {v : α} (hi : i = xs.length)
    (hcx : cntLE xs v ≤ i)
    (hrun : ∀ k, cntLE xs v ≤ k → k ≤ i → xs.get? k = xs.get? i) :
    cntLE xs v = xs.length := by
  by_contra hcon
  have hlt : cntLE xs v < xs.length := lt_of_le_of_ne (cntLE_le_length xs v) hcon
  have h1 := hrun (cntLE xs v) le_rfl (by omega)
  have h2 : xs.get? i = none := by
    rw [List.get?_eq_none]
    omega
  rw [h2] at h1
  have h3 : xs.get? (cntLE xs v) ≠ none := by
    intro hc
    rw [List.get?_eq_none] at hc
    omega
  exact h3 h1

/-- The statistic update of one sweep round: taking the maximum of the
running statistic and the ECDF difference at the newly processed value yields
the maximum over all values processed so far. -/
theorem stat_update (xs ys : List α) (hxs : List.Sorted (· ≤ ·) xs)
    (hys : List.Sorted (· ≤ ·) ys) {i j : ℕ} {x_i y_j vNew : α} {stat : ℚ}
    (hxi : xs.get? i = some x_i) (hyj : ys.get? j = some y_j)
    (hvx : vNew ≤ x_i) (hvy : vNew ≤ y_j) (hvmem : vNew ∈ xs ∨ vNew ∈ ys)
    (hbase_or : (i = 0 ∧ j = 0 ∧ stat = 0) ∨
      (∃ v, v ≤ vNew ∧ cntLE xs v ≤ i ∧ cntLE ys v ≤ j ∧
        (∀ k, cntLE xs v ≤ k → k ≤ i → xs.get? k = xs.get? i) ∧
        (∀ k, cntLE ys v ≤ k → k ≤ j → ys.get? k = ys.get? j) ∧
        stat = maxOverQ (((xs ++ ys).filter (fun t => t ≤ v)).map (ecdfDiff xs ys)))) :
    max stat (ecdfDiff xs ys vNew)
      = maxOverQ (((xs ++ ys).filter (fun t => t ≤ vNew)).map (ecdfDiff xs ys)) := by
  have hvmem' : vNew ∈ xs ++ ys := List.mem_append.mpr hvmem
  rcases hbase_or with ⟨hi0, hj0, hstat0⟩ | ⟨v, hvle, hcx, hcy, hrx, hry, hstat⟩
  · subst hi0 hj0 hstat0
    have hconst : ∀ t ∈ xs ++ ys, t ≤ vNew → ecdfDiff xs ys t = ecdfDiff xs ys vNew := by
      intro t ht htle
      have hge : vNew ≤ t := by
        rcases List.mem_append.mp ht with ht' | ht'
        · exact le_trans hvx (sorted_head_le hxs hxi t ht')
        · exact le_trans hvy (sorted_head_le hys hyj t ht')
      rw [le_antisymm htle hge]
    rw [maxOverQ_filter_base (xs ++ ys) (ecdfDiff xs ys) vNew hvmem'
      (abs_nonneg _) hconst]
    exact max_eq_right (abs_nonneg _)
  · have hstep : ∀ t ∈ xs ++ ys, ¬ t ≤ v → t ≤ vNew →
        ecdfDiff xs ys t = ecdfDiff xs ys vNew := by
      intro t ht htv htle
      have hge : vNew ≤ t := by
        rcases List.mem_append.mp ht with ht' | ht'
        · exact le_trans hvx (ge_of_unprocessed hxs hxi hcx hrx ht' htv)
        · exact le_trans hvy (ge_of_unprocessed hys hyj hcy hry ht' htv)
      rw [le_antisymm htle hge]
    rw [maxOverQ_filter_step (xs ++ ys) (ecdfDiff xs ys) v vNew hvle hvmem' hstep,
      hstat]

/-- Main correctness of the merge sweep loop of calculate_statistic: from any
state satisfying the sweep invariant, with enough fuel, the loop returns the
maximum absolute ECDF difference over all points of both (sorted) samples. -/
theorem ksLoop_spec (xs ys : List α) (hxs : List.Sorted (· ≤ ·) xs)
    (hys : List.Sorted (· ≤ ·) ys) (hn : 0 < xs.length) (hm : 0 < ys.length) :
    ∀ (fuel : ℕ) (i j : ℕ) (ecx ecy stat : ℚ),
      (xs.length - i) + (ys.length - j) < fuel →
      ((i = 0 ∧ j = 0 ∧ ecx = 0 ∧ ecy = 0 ∧ stat = 0) ∨
        (∃ v, (v ∈ xs ∨ v ∈ ys) ∧
          ecx = (cntLE xs v : ℚ) / (xs.length : ℚ) ∧
          ecy = (cntLE ys v : ℚ) / (ys.length : ℚ) ∧
          cntLE xs v ≤ i ∧ i ≤ xs.length ∧
          cntLE ys v ≤ j ∧ j ≤ ys.length ∧
          (∀ k, cntLE xs v ≤ k → k ≤ i → xs.get? k = xs.get? i) ∧
          (∀ k, cntLE ys v ≤ k → k ≤ j → ys.get? k = ys.get? j) ∧
          stat = maxOverQ (((xs ++ ys).filter (fun t => t ≤ v)).map (ecdfDiff xs ys)))) →
      ksLoop fuel xs ys i j ecx ecy stat
        = some (maxOverQ ((xs ++ ys).map (ecdfDiff xs ys))) := by
  intro fuel
  induction fuel with
  | zero =>
    intro i j ecx ecy stat hfuel hinv
    omega
  | succ fuel ih =>
    intro i j ecx ecy stat hfuel hinv
    by_cases hguard : i < xs.length ∧ j < ys.length
    · obtain ⟨x_i, hxi⟩ : ∃ p, xs.get? i = some p := ⟨_, List.get?_eq_get hguard.1⟩
      obtain ⟨y_j, hyj⟩ : ∃ p, ys.get? j = some p := ⟨_, List.get?_eq_get hguard.2⟩
      rw [ksLoop, if_pos hguard, hxi, hyj]
      have hxi_mem : x_i ∈ xs := List.get?_mem hxi
      have hyj_mem : y_j ∈ ys := List.get?_mem hyj
      have hi1get : xs.get? (valueWalk xs x_i i) = some x_i :=
        (valueWalk_spec xs x_i i hxi).1
      have hj1get : ys.get? (valueWalk ys y_j j) = some y_j :=
        (valueWalk_spec ys y_j j hyj).1
      have hi1lt : valueWalk xs x_i i < xs.length := (List.get?_eq_some.mp hi1get).1
      have hj1lt : valueWalk ys y_j j < ys.length := (List.get?_eq_some.mp hj1get).1
      have hi1ge : i ≤ valueWalk xs x_i i := valueWalk_ge xs x_i i
      have hj1ge : j ≤ valueWalk ys y_j j := valueWalk_ge ys y_j j
      have hcnt_xi : cntLE xs x_i = valueWalk xs x_i i + 1 :=
        (valueWalk_eq_cntLE_sub_one hxs hxi).symm
      have hcnt_yj : cntLE ys y_j = valueWalk ys y_j j + 1 :=
        (valueWalk_eq_cntLE_sub_one hys hyj).symm
      have hrun_x : ∀ k, i ≤ k → k ≤ valueWalk xs x_i i → xs.get? k = some x_i :=
        valueWalk_run xs x_i i hxi
      have hrun_y : ∀ k, j ≤ k → k ≤ valueWalk ys y_j j → ys.get? k = some y_j :=
        valueWalk_run ys y_j j hyj
      -- facts holding in both invariant cases, phrased for reuse
      have hbase_or_x : (i = 0 ∧ j = 0) ∨
          (∃ v, v < x_i ∧ v < y_j ∧ (v ∈ xs ∨ v ∈ ys) ∧
            ecx = (cntLE xs v : ℚ) / (xs.length : ℚ) ∧
            ecy = (cntLE ys v : ℚ) / (ys.length : ℚ) ∧
            cntLE xs v ≤ i ∧ cntLE ys v ≤ j ∧
            (∀ k, cntLE xs v ≤ k → k ≤ i → xs.get? k = xs.get? i) ∧
            (∀ k, cntLE ys v ≤ k → k ≤ j → ys.get? k = ys.get? j) ∧
            stat = maxOverQ (((xs ++ ys).filter (fun t => t ≤ v)).map
              (ecdfDiff xs ys))) := by
        rcases hinv with ⟨hi0, hj0, _, _, _⟩ | ⟨v, hv1, hv2, hv3, hv4, hv5, hv6, hv7,
            hv8, hv9, hv10⟩
        · exact Or.inl ⟨hi0, hj0⟩
        · exact Or.inr ⟨v, lt_of_cnt_le hxs hxi hv4, lt_of_cnt_le hys hyj hv6,
            hv1, hv2, hv3, hv4, hv6, hv8, hv9, hv10⟩
      have hstat0 : (i = 0 ∧ j = 0) → stat = 0 := by
        intro hij
        rcases hinv with ⟨_, _, _, _, h⟩ | ⟨v, _, _, _, hv4, _, hv6, _, _, _, hv10⟩
        · exact h
        · have hx0 : cntLE xs v = 0 := by omega
          have hy0 : cntLE ys v = 0 := by omega
          rw [hv10]
          have hfilter : (xs ++ ys).filter (fun t => decide (t ≤ v)) = [] := by
            rw [List.filter_eq_nil]
            intro t ht
            simp only [decide_eq_true_eq]
            intro htle
            rcases List.mem_append.mp ht with ht' | ht'
            · have hpos : 0 < cntLE xs v := by
                unfold cntLE
                rw [List.countP_pos]
                exact ⟨t, ht', by simpa using htle⟩
              omega
            · have hpos : 0 < cntLE ys v := by
                unfold cntLE
                rw [List.countP_pos]
                exact ⟨t, ht', by simpa using htle⟩
              omega
          rw [hfilter]
          rfl
      by_cases hcx : Min.min x_i y_j = x_i
      · by_cases hcy : Min.min x_i y_j = y_j
        · -- both sides processed: x_i = y_j is the current value
          have hxy : y_j = x_i := by rw [← hcy, hcx]
          simp only [if_pos hcx, if_pos hcy]
          rw [hxy] at hyj hj1get hj1lt hj1ge hcnt_yj hrun_y hyj_mem ⊢
          refine ih _ _ _ _ _ (by clear hinv hbase_or_x hstat0; omega) (Or.inr ⟨x_i, Or.inl hxi_mem, ?_, ?_, ?_,
            by omega, ?_, by omega, ?_, ?_, ?_⟩)
          · rw [hcnt_xi]
            push_cast
            ring
          · rw [hcnt_yj]
            push_cast
            ring
          · omega
          · omega
          · intro k hk1 hk2
            have : k = valueWalk xs x_i i + 1 := by omega
            rw [this]
          · intro k hk1 hk2
            have : k = valueWalk ys x_i j + 1 := by omega
            rw [this]
          · rw [ite_gt_max]
            have hdiff : |(↑(valueWalk xs x_i i) + 1) / (xs.length : ℚ)
                - (↑(valueWalk ys x_i j) + 1) / (ys.length : ℚ)|
                = ecdfDiff xs ys x_i := by
              unfold ecdfDiff
              rw [hcnt_xi, hcnt_yj]
              push_cast
              ring_nf
            rw [hdiff]
            refine stat_update xs ys hxs hys hxi hyj le_rfl le_rfl
              (Or.inl hxi_mem) ?_
            rcases hbase_or_x with ⟨hi0, hj0⟩ | ⟨v, hv1, hv2, hv3, hv4, hv5, hv6,
                hv7, hv8, hv9, hv10⟩
            · exact Or.inl ⟨hi0, hj0, hstat0 ⟨hi0, hj0⟩⟩
            · exact Or.inr ⟨v, le_of_lt hv1, hv6, hv7, hv8, hv9, hv10⟩
        · -- only the x side is processed: x_i < y_j
          have hxy : x_i < y_j := by
            rcases lt_or_eq_of_le (min_le_right x_i y_j) with h | h
            · rw [hcx] at h
              exact h
            · exact absurd h hcy
          simp only [if_pos hcx, if_neg hcy]
          have hcnty_new : cntLE ys x_i = cntLE ys (Min.min x_i y_j) := by rw [hcx]
          have hecy_new : ecy = (cntLE ys x_i : ℚ) / (ys.length : ℚ) := by
            rcases hbase_or_x with ⟨hi0, hj0⟩ | ⟨v, hv1, hv2, hv3, hv4, hv5, hv6,
                hv7, hv8, hv9, hv10⟩
            · have hzero : cntLE ys x_i = 0 := by
                unfold cntLE
                rw [List.countP_eq_zero]
                intro t ht
                simp only [decide_eq_true_eq]
                intro htle
                subst hj0
                exact absurd (lt_of_le_of_lt htle hxy)
                  (not_lt.mpr (sorted_head_le hys hyj t ht))
              rw [hzero]
              norm_num
              rcases hinv with ⟨_, _, _, hecy, _⟩ | ⟨v, _, _, hecy, _, _, hcy0, _,
                  _, _, _⟩
              · exact hecy
              · rw [hecy]
                have hcy0' : cntLE ys v = 0 := by omega
                rw [hcy0']
                norm_num
            · rw [hv5, cnt_stable_of_run hys hyj hv7 hv9 (le_of_lt hv1) hxy]
          have hcnty_le_j : cntLE ys x_i ≤ j := by
            rcases hbase_or_x with ⟨hi0, hj0⟩ | ⟨v, hv1, hv2, hv3, hv4, hv5, hv6,
                hv7, hv8, hv9, hv10⟩
            · have hzero : cntLE ys x_i = 0 := by
                unfold cntLE
                rw [List.countP_eq_zero]
                intro t ht
                simp only [decide_eq_true_eq]
                intro htle
                subst hj0
                exact absurd (lt_of_le_of_lt htle hxy)
                  (not_lt.mpr (sorted_head_le hys hyj t ht))
              omega
            · rw [cnt_stable_of_run hys hyj hv7 hv9 (le_of_lt hv1) hxy]
              exact hv7
          have hruny_new : ∀ k, cntLE ys x_i ≤ k → k ≤ valueWalk ys y_j j →
              ys.get? k = ys.get? (valueWalk ys y_j j) := by
            intro k hk1 hk2
            rw [hj1get]
            by_cases hkj : j ≤ k
            · exact hrun_y k hkj hk2
            · rcases hbase_or_x with ⟨hi0, hj0⟩ | ⟨v, hv1, hv2, hv3, hv4, hv5,
                  hv6, hv7, hv8, hv9, hv10⟩
              · omega
              · have hstab := cnt_stable_of_run hys hyj hv7 hv9 (le_of_lt hv1) hxy
                have := hv9 k (by omega) (by omega)
                rw [this, hyj]
          refine ih _ _ _ _ _ (by clear hinv hbase_or_x hstat0; omega) (Or.inr ⟨x_i, Or.inl hxi_mem, ?_, ?_, ?_,
            by omega, hcnty_le_j.trans hj1ge, by omega, ?_, ?_, ?_⟩)
          · rw [hcnt_xi]
            push_cast
            ring
          · exact hecy_new
          · omega
          · intro k hk1 hk2
            have : k = valueWalk xs x_i i + 1 := by omega
            rw [this]
          · exact hruny_new
          · rw [ite_gt_max]
            have hdiff : |(↑(valueWalk xs x_i i) + 1) / (xs.length : ℚ) - ecy|
                = ecdfDiff xs ys x_i := by
              unfold ecdfDiff
              rw [hcnt_xi, hecy_new]
              push_cast
              ring_nf
            rw [hdiff]
            refine stat_update xs ys hxs hys hxi hyj le_rfl (le_of_lt hxy)
              (Or.inl hxi_mem) ?_
            rcases hbase_or_x with ⟨hi0, hj0⟩ | ⟨v, hv1, hv2, hv3, hv4, hv5, hv6,
                hv7, hv8, hv9, hv10⟩
            · exact Or.inl ⟨hi0, hj0, hstat0 ⟨hi0, hj0⟩⟩
            · exact Or.inr ⟨v, le_of_lt hv1, hv6, hv7, hv8, hv9, hv10⟩
      · by_cases hcy : Min.min x_i y_j = y_j
        · -- only the y side is processed: y_j < x_i
          have hxy : y_j < x_i := by
            rcases lt_or_eq_of_le (min_le_left x_i y_j) with h | h
            · rw [hcy] at h
              exact h
            · exact absurd h hcx
          simp only [if_neg hcx, if_pos hcy]
          have hecx_new : ecx = (cntLE xs y_j : ℚ) / (xs.length : ℚ) := by
            rcases hbase_or_x with ⟨hi0, hj0⟩ | ⟨v, hv1, hv2, hv3, hv4, hv5, hv6,
                hv7, hv8, hv9, hv10⟩
            · have hzero : cntLE xs y_j = 0 := by
                unfold cntLE
                rw [List.countP_eq_zero]
                intro t ht
                simp only [decide_eq_true_eq]
                intro htle
                subst hi0
                exact absurd (lt_of_le_of_lt htle hxy)
                  (not_lt.mpr (sorted_head_le hxs hxi t ht))
              rw [hzero]
              norm_num
              rcases hinv with ⟨_, _, hecx, _, _⟩ | ⟨v, _, hecx, _, hcx0, _, _, _,
                  _, _, _⟩
              · exact hecx
              · rw [hecx]
                have hcx0' : cntLE xs v = 0 := by omega
                rw [hcx0']
                norm_num
            · rw [hv4, cnt_stable_of_run hxs hxi hv6 hv8 (le_of_lt hv2) hxy]
          have hcntx_le_i : cntLE xs y_j ≤ i := by
            rcases hbase_or_x with ⟨hi0, hj0⟩ | ⟨v, hv1, hv2, hv3, hv4, hv5, hv6,
                hv7, hv8, hv9, hv10⟩
            · have hzero : cntLE xs y_j = 0 := by
                unfold cntLE
                rw [List.countP_eq_zero]
                intro t ht
                simp only [decide_eq_true_eq]
                intro htle
                subst hi0
                exact absurd (lt_of_le_of_lt htle hxy)
                  (not_lt.mpr (sorted_head_le hxs hxi t ht))
              omega
            · rw [cnt_stable_of_run hxs hxi hv6 hv8 (le_of_lt hv2) hxy]
              exact hv6
          have hrunx_new : ∀ k, cntLE xs y_j ≤ k → k ≤ valueWalk xs x_i i →
              xs.get? k = xs.get? (valueWalk xs x_i i) := by
            intro k hk1 hk2
            rw [hi1get]
            by_cases hki : i ≤ k
            · exact hrun_x k hki hk2
            · rcases hbase_or_x with ⟨hi0, hj0⟩ | ⟨v, hv1, hv2, hv3, hv4, hv5,
                  hv6, hv7, hv8, hv9, hv10⟩
              · omega
              · have hstab := cnt_stable_of_run hxs hxi hv6 hv8 (le_of_lt hv2) hxy
                have := hv8 k (by omega) (by omega)
                rw [this, hxi]
          refine ih _ _ _ _ _ (by clear hinv hbase_or_x hstat0; omega) (Or.inr ⟨y_j, Or.inr hyj_mem, ?_, ?_,
            hcntx_le_i.trans hi1ge, by omega, ?_, by omega, ?_, ?_, ?_⟩)
          · exact hecx_new
          · rw [hcnt_yj]
            push_cast
            ring
          · omega
          · exact hrunx_new
          · intro k hk1 hk2
            have : k = valueWalk ys y_j j + 1 := by omega
            rw [this]
          · rw [ite_gt_max]
            have hdiff : |ecx - (↑(valueWalk ys y_j j) + 1) / (ys.length : ℚ)|
                = ecdfDiff xs ys y_j := by
              unfold ecdfDiff
              rw [hcnt_yj, hecx_new]
              push_cast
              ring_nf
            rw [hdiff]
            refine stat_update xs ys hxs hys hxi hyj (le_of_lt hxy) le_rfl
              (Or.inr hyj_mem) ?_
            rcases hbase_or_x with ⟨hi0, hj0⟩ | ⟨v, hv1, hv2, hv3, hv4, hv5, hv6,
                hv7, hv8, hv9, hv10⟩
            · exact Or.inl ⟨hi0, hj0, hstat0 ⟨hi0, hj0⟩⟩
            · exact Or.inr ⟨v, le_of_lt hv2, hv6, hv7, hv8, hv9, hv10⟩
        · exfalso
          rcases min_choice x_i y_j with hc | hc
          · exact hcx hc
          · exact hcy hc
    · -- loop exit: one of the two sides is exhausted
      rw [ksLoop, if_neg hguard]
      rcases hinv with ⟨hi0, hj0, _, _, _⟩ | ⟨v, hv1, hv2, hv3, hv4, hv5, hv6, hv7,
          hv8, hv9, hv10⟩
      · exfalso
        exact hguard ⟨by omega, by omega⟩
      · have hvmem' : v ∈ xs ++ ys := List.mem_append.mpr hv1
        have hfv_mem : ecdfDiff xs ys v
            ∈ ((xs ++ ys).filter (fun t => t ≤ v)).map (ecdfDiff xs ys) :=
          List.mem_map_of_mem _ (List.mem_filter.mpr ⟨hvmem', by simp⟩)
        have hn' : (0 : ℚ) < (xs.length : ℚ) := by exact_mod_cast hn
        have hm' : (0 : ℚ) < (ys.length : ℚ) := by exact_mod_cast hm
        rw [hv10]
        congr 1
        symm
        apply maxOverQ_filter_final
        intro t ht htv
        have hvt : v ≤ t := le_of_lt (not_le.mp htv)
        have hft_le_fv : ecdfDiff xs ys t ≤ ecdfDiff xs ys v := by
          rcases (by omega : i = xs.length ∨ j = ys.length) with hfull | hfull
          · have hcfull : cntLE xs v = xs.length := cnt_full_of_run hfull hv4 hv8
            have hcfull_t : cntLE xs t = xs.length :=
              le_antisymm (cntLE_le_length xs t)
                (hcfull ▸ cntLE_mono xs hvt)
            unfold ecdfDiff
            rw [hcfull, hcfull_t, div_self (ne_of_gt hn')]
            have h1 : (cntLE ys t : ℚ) / (ys.length : ℚ) ≤ 1 := by
              rw [div_le_one hm']
              exact_mod_cast cntLE_le_length ys t
            have h2 : (cntLE ys v : ℚ) / (ys.length : ℚ) ≤ 1 := by
              rw [div_le_one hm']
              exact_mod_cast cntLE_le_length ys v
            have h3 : (cntLE ys v : ℚ) / (ys.length : ℚ)
                ≤ (cntLE ys t : ℚ) / (ys.length : ℚ) := by
              gcongr
              exact_mod_cast cntLE_mono ys hvt
            rw [abs_of_nonneg (by linarith), abs_of_nonneg (by linarith)]
            linarith
          · have hcfull : cntLE ys v = ys.length := cnt_full_of_run hfull hv6 hv9
            have hcfull_t : cntLE ys t = ys.length :=
              le_antisymm (cntLE_le_length ys t)
                (hcfull ▸ cntLE_mono ys hvt)
            unfold ecdfDiff
            rw [hcfull, hcfull_t, div_self (ne_of_gt hm')]
            have h1 : (cntLE xs t : ℚ) / (xs.length : ℚ) ≤ 1 := by
              rw [div_le_one hn']
              exact_mod_cast cntLE_le_length xs t
            have h2 : (cntLE xs v : ℚ) / (xs.length : ℚ) ≤ 1 := by
              rw [div_le_one hn']
              exact_mod_cast cntLE_le_length xs v
            have h3 : (cntLE xs v : ℚ) / (xs.length : ℚ)
                ≤ (cntLE xs t : ℚ) / (xs.length : ℚ) := by
              gcongr
              exact_mod_cast cntLE_mono xs hvt
            rw [abs_sub_comm _ (1 : ℚ), abs_sub_comm _ (1 : ℚ),
              abs_of_nonneg (by linarith), abs_of_nonneg (by linarith)]
            linarith
        exact le_trans hft_le_fv (maxOverQ_ge hfv_mem)

/-- The merge sweep computes the maximum absolute ECDF difference over all
points of both samples. -/
theorem calculate_statistic_eq (xs ys : List α) (hx : 0 < xs.length)
    (hy : 0 < ys.length) :
    calculate_statistic xs ys
      = some (maxOverQ ((xs ++ ys).map (ecdfDiff xs ys))) := by
  unfold calculate_statistic
  rw [if_pos ⟨hx, hy⟩]
  have hrun := ksLoop_spec (sortAsc xs) (sortAsc ys) (sortAsc_sorted xs)
    (sortAsc_sorted ys) (by rw [sortAsc_length]; exact hx)
    (by rw [sortAsc_length]; exact hy)
    (xs.length + ys.length + 1) 0 0 0 0 0
    (by rw [sortAsc_length, sortAsc_length]; omega)
    (Or.inl ⟨rfl, rfl, rfl, rfl, rfl⟩)
  rw [hrun]
  congr 1
  have hfun : ecdfDiff (sortAsc xs) (sortAsc ys) = ecdfDiff xs ys := by
    funext t
    unfold ecdfDiff
    rw [cntLE_sortAsc, cntLE_sortAsc, sortAsc_length, sortAsc_length]
  rw [hfun]
  exact maxOverQ_perm (List.Perm.map _ ((sortAsc_perm xs).append (sortAsc_perm ys)))

/-- The brute-force double-ECDF computation computes the same maximum. -/
theorem calculate_statistic_alt_eq (xs ys : List α) (hx : 0 < xs.length)
    (hy : 0 < ys.length) :
    calculate_statistic_alt xs ys
      = some (maxOverQ ((xs ++ ys).map (ecdfDiff xs ys))) := by
  unfold calculate_statistic_alt
  rw [if_pos ⟨hx, hy⟩, Ecdf.new_some hx, Ecdf.new_some hy]
  simp only [Ecdf.value_mk]
  congr 1
  rw [foldl_statmax_eq (fun x => |(cntLE xs x : ℚ) / (xs.length : ℚ)
      - (cntLE ys x : ℚ) / (ys.length : ℚ)|) xs,
    foldl_statmax_eq (fun x => |(cntLE xs x : ℚ) / (xs.length : ℚ)
      - (cntLE ys x : ℚ) / (ys.length : ℚ)|) ys]
  show List.foldl max (List.foldl max 0 _) _ = maxOverQ _
  unfold maxOverQ
  rw [List.map_append, List.foldl_append]
  rfl

/-- C1: the synchronized merge sweep with duplicate-run advancing and early
exit returns exactly the brute-force maximum over every point of both samples
of the absolute difference of the two cached ECDFs. -/
theorem claim_C1_merge_eq_brute (xs ys : List α) (hx : xs ≠ []) (hy : ys ≠ []) :
    calculate_statistic xs ys = calculate_statistic_alt xs ys ∧
      ∀ ex ∈ Ecdf.new xs, ∀ ey ∈ Ecdf.new ys,
        calculate_statistic xs ys
          = some (maxOverQ ((xs ++ ys).map (fun t => |ex.value t - ey.value t|))) := by
  have hx' : 0 < xs.length := List.length_pos.mpr hx
  have hy' : 0 < ys.length := List.length_pos.mpr hy
  constructor
  · rw [calculate_statistic_eq xs ys hx' hy', calculate_statistic_alt_eq xs ys hx' hy']
  · rw [Ecdf.new_some hx', Ecdf.new_some hy']
    intro ex hex ey hey
    simp only [Option.mem_def, Option.some_inj] at hex hey
    subst hex hey
    rw [calculate_statistic_eq xs ys hx' hy']
    have hfeq : (fun t : α => |Ecdf.value { samples := sortAsc xs, length := xs.length } t
        - Ecdf.value { samples := sortAsc ys, length := ys.length } t|)
        = ecdfDiff xs ys := by
      funext t
      rw [Ecdf.value_mk, Ecdf.value_mk]
      rfl
    rw [hfeq]

theorem claim_C1_merge_eq_brute_witness :
    (([5, 1, 4, 2, 2] : List ℤ) ≠ [] ∧ ([3, 3, 6] : List ℤ) ≠ []) ∧
      (calculate_statistic ([5, 1, 4, 2, 2] : List ℤ) [3, 3, 6]
          = calculate_statistic_alt ([5, 1, 4, 2, 2] : List ℤ) [3, 3, 6] ∧
        ∀ ex ∈ Ecdf.new ([5, 1, 4, 2, 2] : List ℤ), ∀ ey ∈ Ecdf.new ([3, 3, 6] : List ℤ),
          calculate_statistic ([5, 1, 4, 2, 2] : List ℤ) [3, 3, 6]
            = some (maxOverQ ((([5, 1, 4, 2, 2] : List ℤ) ++ [3, 3, 6]).map
                (fun t => |ex.value t - ey.value t|)))) :=
  ⟨⟨by decide, by decide⟩, claim_C1_merge_eq_brute [5, 1, 4, 2, 2] [3, 3, 6]
    (by decide) (by decide)⟩

theorem calculate_critical_value_eq (n1 n2 : ℕ) (h1 : 12 < n1) (h2 : 12 < n2) :
    calculate_critical_value n1 n2 (0.95 : ℚ)
      = some (1.36 * Real.sqrt (((n1 : ℝ) + (n2 : ℝ)) / ((n1 : ℝ) * (n2 : ℝ)))) := by
  unfold calculate_critical_value
  rw [if_pos ⟨by omega, by omega⟩, if_pos ⟨by norm_num, by norm_num⟩,
    if_pos ⟨h1, h2⟩, if_pos rfl]

theorem test_eq_some (xs ys : List α) (hx : 12 < xs.length) (hy : 12 < ys.length) :
    test xs ys (0.95 : ℚ)
      = some ⟨((maxOverQ ((xs ++ ys).map (ecdfDiff xs ys)) : ℚ) : ℝ)
            > 1.36 * Real.sqrt (((xs.length : ℝ) + (ys.length : ℝ))
              / ((xs.length : ℝ) * (ys.length : ℝ))),
          maxOverQ ((xs ++ ys).map (ecdfDiff xs ys)),
          1.36 * Real.sqrt (((xs.length : ℝ) + (ys.length : ℝ))
            / ((xs.length : ℝ) * (ys.length : ℝ))),
          0.95⟩ := by
  unfold test
  rw [if_pos ⟨by omega, by omega⟩, if_pos ⟨by norm_num, by norm_num⟩, if_pos ⟨hx, hy⟩,
    if_pos rfl, calculate_statistic_eq xs ys (by omega) (by omega),
    calculate_critical_value_eq xs.length ys.length hx hy]

/-- C4: for sample sizes above 12 at confidence exactly 0.95, the critical
value is 1.36 times the square root of (n1 + n2) / (n1 n2), the test result
carries exactly that critical value for the two sample lengths, echoes the
confidence, and is rejected exactly when the statistic exceeds the critical
value. -/
theorem claim_C4_critical_value (n1 n2 : ℕ) (h1 : 12 < n1) (h2 : 12 < n2)
    (xs ys : List α) (hx : 12 < xs.length) (hy : 12 < ys.length) :
    calculate_critical_value n1 n2 (0.95 : ℚ)
        = some (1.36 * Real.sqrt (((n1 : ℝ) + (n2 : ℝ)) / ((n1 : ℝ) * (n2 : ℝ)))) ∧
      ∃ r, test xs ys (0.95 : ℚ) = some r ∧
        r.critical_value = 1.36 * Real.sqrt (((xs.length : ℝ) + (ys.length : ℝ))
          / ((xs.length : ℝ) * (ys.length : ℝ))) ∧
        r.confidence = 0.95 ∧
        (r.is_rejected ↔ (r.statistic : ℝ) > r.critical_value) :=
  ⟨calculate_critical_value_eq n1 n2 h1 h2,
    ⟨_, test_eq_some xs ys hx hy, rfl, rfl, Iff.rfl⟩⟩

theorem claim_C4_critical_value_witness :
    ((12 < 13 ∧ 12 < 14) ∧ (12 < (List.range 13).length ∧ 12 < (List.range 14).length)) ∧
      (calculate_critical_value 13 14 (0.95 : ℚ)
          = some (1.36 * Real.sqrt (((13 : ℝ) + (14 : ℝ)) / ((13 : ℝ) * (14 : ℝ)))) ∧
        ∃ r, test (List.range 13) (List.range 14) (0.95 : ℚ) = some r ∧
          r.critical_value = 1.36 * Real.sqrt ((((List.range 13).length : ℝ)
              + ((List.range 14).length : ℝ))
            / (((List.range 13).length : ℝ) * ((List.range 14).length : ℝ))) ∧
          r.confidence = 0.95 ∧
          (r.is_rejected ↔ (r.statistic : ℝ) > r.critical_value)) :=
  ⟨⟨⟨by decide, by decide⟩, ⟨by decide, by decide⟩⟩,
    claim_C4_critical_value 13 14 (by decide) (by decide)
      (List.range 13) (List.range 14) (by decide) (by decide)⟩

/-- C6: the test aborts exactly when a precondition fails: a sample is empty,
the confidence is outside (0, 1), a sample has at most 12 elements, or the
confidence is not exactly 0.95; when every precondition holds it returns a
result, with no other failure path. -/
theorem claim_C6_abort_iff (xs ys : List α) (confidence : ℚ) :
    (test xs ys confidence).isSome ↔
      xs ≠ [] ∧ ys ≠ [] ∧ 0 < confidence ∧ confidence < 1 ∧
        12 < xs.length ∧ 12 < ys.length ∧ confidence = 0.95 := by
  constructor
  · intro h
    unfold test at h
    split_ifs at h with h1 h2 h3 h4
    · exact ⟨List.length_pos.mp h1.1, List.length_pos.mp h1.2, h2.1, h2.2,
        h3.1, h3.2, h4⟩
    all_goals simp at h
  · rintro ⟨hx, hy, hc1, hc2, hx12, hy12, hc95⟩
    subst hc95
    unfold test
    rw [if_pos ⟨List.length_pos.mpr hx, List.length_pos.mpr hy⟩, if_pos ⟨hc1, hc2⟩,
      if_pos ⟨hx12, hy12⟩, if_pos rfl, calculate_statistic_eq xs ys (by omega) (by omega),
      calculate_critical_value_eq xs.length ys.length hx12 hy12]
    rfl

theorem claim_C6_abort_iff_witness :
    ((List.range 13 : List ℕ) ≠ [] ∧ (List.range 13 : List ℕ) ≠ [] ∧
        (0 : ℚ) < 0.95 ∧ (0.95 : ℚ) < 1 ∧ 12 < (List.range 13).length ∧
        12 < (List.range 13).length ∧ (0.95 : ℚ) = 0.95) ∧
      (test (List.range 13) (List.range 13) (0.95 : ℚ)).isSome :=
  ⟨⟨by decide, by decide, by norm_num, by norm_num, by decide, by decide, rfl⟩,
    (claim_C6_abort_iff (List.range 13) (List.range 13) (0.95 : ℚ)).mpr
      ⟨by decide, by decide, by norm_num, by norm_num, by decide, by decide, rfl⟩⟩

/-- C7: for a valid sample and any permutation of it, the KS statistic of the
test is exactly zero: the statistic is order-invariant and vanishes on equal
multisets. -/
theorem claim_C7_statistic_zero_on_perm (xs ys : List α) (hx : 12 < xs.length)
    (hperm : ys.Perm xs) :
    ∃ r, test xs ys (0.95 : ℚ) = some r ∧ r.statistic = 0 := by
  have hy : 12 < ys.length := by rw [hperm.length_eq]; exact hx
  refine ⟨_, test_eq_some xs ys hx hy, ?_⟩
  show maxOverQ ((xs ++ ys).map (ecdfDiff xs ys)) = 0
  apply le_antisymm
  · refine maxOverQ_le le_rfl ?_
    intro q hq
    obtain ⟨t, ht, rfl⟩ := List.mem_map.mp hq
    unfold ecdfDiff
    have hcnt : cntLE ys t = cntLE xs t := hperm.countP_eq _
    rw [hcnt, hperm.length_eq]
    simp
  · exact maxOverQ_nonneg _

theorem claim_C7_statistic_zero_on_perm_witness :
    (12 < (List.range 13).length ∧ ((List.range 13).reverse).Perm (List.range 13)) ∧
      ∃ r, test (List.range 13) ((List.range 13).reverse) (0.95 : ℚ) = some r ∧
        r.statistic = 0 :=
  ⟨⟨by decide, by decide⟩,
    claim_C7_statistic_zero_on_perm (List.range 13) ((List.range 13).reverse)
      (by decide) (by decide)⟩

/-- C9: every public operation terminates on inputs satisfying its
preconditions: the quickselect rank (and percentile and permille through it),
the linear ecdf scan, the merge sweep of calculate_statistic, and the full
test all return a value; the two loops are given fuel bounds that the
invariants show are never exhausted. -/
theorem claim_C9_termination (l xs ys : List α) (r p q : ℕ) (t : α)
    (hr1 : 1 ≤ r) (hr2 : r ≤ l.length) (hp1 : 1 ≤ p) (hp2 : p ≤ 100)
    (hq1 : 1 ≤ q) (hq2 : q ≤ 1000) (hx : 12 < xs.length) (hy : 12 < ys.length) :
    (rank l r).isSome ∧ (percentile l p).isSome ∧ (permille l q).isSome ∧
      (ecdf l t).isSome ∧ (calculate_statistic xs ys).isSome ∧
      (test xs ys (0.95 : ℚ)).isSome := by
  have hl : 0 < l.length := by omega
  have hrank : ∀ r', 1 ≤ r' → r' ≤ l.length → (rank l r').isSome := by
    intro r' h1 h2
    rw [rank_eq_sorted_get? l r' hl h1 h2, get?_isSome_iff, sortAsc_length]
    omega
  refine ⟨hrank r hr1 hr2, ?_, ?_, ?_, ?_, ?_⟩
  · unfold percentile
    rw [if_pos ⟨hp1, hp2⟩, if_pos hl]
    obtain ⟨b1, b2⟩ :=
      ceil_rank_bounds (100 : ℚ) hp1 (by norm_num) (by exact_mod_cast hp2) hl
    exact hrank _ b1 b2
  · unfold permille
    rw [if_pos ⟨hq1, hq2⟩, if_pos hl]
    obtain ⟨b1, b2⟩ :=
      ceil_rank_bounds (1000 : ℚ) hq1 (by norm_num) (by exact_mod_cast hq2) hl
    exact hrank _ b1 b2
  · unfold ecdf
    rw [if_pos hl]
    rfl
  · rw [calculate_statistic_eq xs ys (by omega) (by omega)]
    rfl
  · rw [test_eq_some xs ys hx hy]
    rfl

theorem claim_C9_termination_witness :
    ((1 ≤ 2 ∧ 2 ≤ ([7, 7, 9] : List ℕ).length) ∧ (1 ≤ 40 ∧ 40 ≤ 100) ∧
        (1 ≤ 700 ∧ 700 ≤ 1000) ∧
        (12 < (List.range 13).length ∧ 12 < (List.range 15).length)) ∧
      ((rank ([7, 7, 9] : List ℕ) 2).isSome ∧ (percentile ([7, 7, 9] : List ℕ) 40).isSome ∧
        (permille ([7, 7, 9] : List ℕ) 700).isSome ∧ (ecdf ([7, 7, 9] : List ℕ) 8).isSome ∧
        (calculate_statistic (List.range 13) (List.range 15)).isSome ∧
        (test (List.range 13) (List.range 15) (0.95 : ℚ)).isSome) :=
  ⟨⟨⟨by decide, by decide⟩, ⟨by decide, by decide⟩, ⟨by decide, by decide⟩,
      ⟨by decide, by decide⟩⟩,
    claim_C9_termination ([7, 7, 9] : List ℕ) (List.range 13) (List.range 15) 2 40 700 8
      (by decide) (by decide) (by decide) (by decide) (by decide) (by decide)
      (by decide) (by decide)⟩

end KolmogorovSmirnov
